import Mathlib

/-!
# sesstypeconv: local session types to and from AUT automata

A shallow embedding of `internal/aut/aut.go`:

* the builder `FromLocal` / `conv.toAut` / `conv.newState`,
* the label codec `recv` / `send` / `parseLabel`,
* the reconstructor `ToLocal` / `stateToType`.

Conventions of the embedding.

* Go maps that are only read and written by key (`scope`, `trans`, `inEdges`,
  `labels`) are functions from the key type; a missing key is `none` (or the
  zero value `0` for `inEdges`, which the source reads without a presence
  test).
* `Locals map[sesstype.Message]local.Type` is a list of alternatives. The
  builder ranges over the map in an unspecified order: the list order is the
  visiting order, so a statement over all lists covers every order.
* `log.Fatalf` in the builder is the result `none`.
* `local.Parse` and the text rendering of a nested local type belong to the
  `sesstype` library; they are parameters (`parse`, `render`).
-/

namespace Sesstypeconv

/-! ## Data model -/

/-- A protocol participant (`sesstype.Role`); equality is by name. -/
structure Role where
  name : String
deriving DecidableEq, Repr

/-- The constructor `sesstype.NewRole`. -/
def NewRole (name : String) : Role := ⟨name⟩

/-- The accessor `Role.Name()`. -/
def Role.Name (r : Role) : String := r.name

/-- A message payload: a base type name (`sesstype.BaseType`) or a nested
local type (a delegated session). -/
inductive Payload (α : Type) where
  | base (name : String) : Payload α
  | loc (t : α) : Payload α

/-- A message signature `sesstype.Message{Label, Payload}`. -/
structure Message (α : Type) where
  Label : String
  Payload : Payload α

/-- The five cases of `local.Type` that `conv.toAut` switches over. -/
inductive Local where
  | End : Local
  | Branch (From : Role) (Locals : List (Message Local × Local)) : Local
  | Select (To : Role) (Locals : List (Message Local × Local)) : Local
  | Recur (T : String) (L : Local) : Local
  | TypeVar (T : String) : Local

/-- One alternative of a `Branch` or `Select`: a map entry of `Locals`. -/
abbrev Alt := Message Local × Local

/-- An automaton state id (`aut.State`). -/
abbrev State := Nat

/-- A labelled edge, `aut.Transition` with its fields `From`, `Label`, `To`. -/
structure Transition where
  From : State
  Label : String
  To : State
deriving DecidableEq, Repr

/-- Modelled from the spec: the automaton container `aut.Aut` of the `aut`
library, an initial state, the declared transition and state counts (the
header set by `SetDes`) and the ordered sequence of transitions. -/
structure Aut where
  Init : State
  NumTransitions : Nat
  NumStates : Int
  Transitions : List Transition
deriving DecidableEq, Repr

/-! ## Text of a message -/

/-- Modelled from the spec: the text of a payload (`Payload.String()` of the
`sesstype` library), the base type name or the rendered text of the nested
type; `render` is the text renderer of local types. -/
def Payload.String (render : Local → String) : Payload Local → String
  | .base name => name
  | .loc t => render t

/-- Modelled from the spec: the text of a message (`Message.String()` of the
`sesstype` library), `<messageLabel>(<payloadText>)`. -/
def Message.String (render : Local → String) (m : Message Local) : String :=
  m.Label ++ "(" ++ m.Payload.String render ++ ")"

/-! ## Type to automaton builder -/

/-- The converter context `conv`: transitions added so far, the scope map,
the declared state count and the next state id. -/
structure Conv where
  fsm : List Transition
  scope : String → Option State
  nstates : Int
  nextstate : Nat

/-- The constructor `newConv`: empty automaton, empty scope, counters at 0. -/
def newConv : Conv :=
  { fsm := [], scope := fun _ => none, nstates := 0, nextstate := 0 }

/-- The method `conv.newState`: bump both counters, return the old
`nextstate`. -/
def Conv.newState (c : Conv) : Conv × State :=
  ({ c with nextstate := c.nextstate + 1, nstates := c.nstates + 1 }, c.nextstate)

/-- Modelled from the spec: the method `AddTransition` of the automaton
container, which appends one edge to the sequence of transitions. -/
def Conv.AddTransition (c : Conv) (frm : State) (label : String) (next : State) : Conv :=
  { c with fsm := c.fsm ++ [⟨frm, label, next⟩] }

/-- The assignment `c.scope[name] = st`. -/
def Conv.bind (c : Conv) (name : String) (st : State) : Conv :=
  { c with scope := fun x => if x = name then some st else c.scope x }

/-- The label `fmt.Sprintf("%s ? %s", role.Name(), m.String())` of a receive. -/
def recvLabel (render : Local → String) (r : Role) (m : Message Local) : String :=
  r.Name ++ " ? " ++ m.String render

/-- The label `fmt.Sprintf("%s ! %s", role.Name(), m.String())` of a send. -/
def sendLabel (render : Local → String) (r : Role) (m : Message Local) : String :=
  r.Name ++ " ! " ++ m.String render

mutual
/-- The method `conv.toAut`. The result `none` is the abort by `log.Fatalf`
on a `TypeVar` missing from `scope`; otherwise the updated context and the
returned state. -/
def toAut (render : Local → String) (c : Conv) (frm : State) : Local → Option (Conv × State)
  | .Branch r alts =>
    match toAutAlts render (recvLabel render r) c frm alts with
    | none => none
    | some c1 => some (c1, frm)
  | .Select r alts =>
    match toAutAlts render (sendLabel render r) c frm alts with
    | none => none
    | some c1 => some (c1, frm)
  | .Recur x body => toAut render (c.bind x frm) frm body
  | .TypeVar x =>
    match c.scope x with
    | none => none
    | some st => some ({ c with nstates := c.nstates - 1 }, st)
  | .End => some (c, frm)
/-- The loop `for m, l := range t.Locals` of `conv.toAut`, over the
alternatives in visiting order; `lbl` is the label format of the node. -/
def toAutAlts (render : Local → String) (lbl : Message Local → String) (c : Conv)
    (frm : State) : List Alt → Option Conv
  | [] => some c
  | (m, l) :: rest =>
    match toAut render c.newState.1 c.newState.2 l with
    | none => none
    | some (c2, next) => toAutAlts render lbl (c2.AddTransition frm (lbl m) next) frm rest
end

/-- The function `FromLocal`: allocate the initial state, convert, then
`SetDes(initState, len(Transitions), nstates)`. -/
def FromLocal (render : Local → String) (l : Local) : Option Aut :=
  match toAut render newConv.newState.1 newConv.newState.2 l with
  | none => none
  | some (c, _) =>
    some { Init := newConv.newState.2, NumTransitions := c.fsm.length,
           NumStates := c.nstates, Transitions := c.fsm }

/-! ## Measures of a local type -/

mutual
/-- Number of alternatives over all `Branch`/`Select` nodes in continuation
position (payload types are not traversed). -/
def numAlts : Local → Nat
  | .Branch _ alts => numAltsList alts
  | .Select _ alts => numAltsList alts
  | .Recur _ body => numAlts body
  | .TypeVar _ => 0
  | .End => 0
/-- The count `numAlts` over a list of alternatives. -/
def numAltsList : List Alt → Nat
  | [] => 0
  | (_, l) :: rest => 1 + numAlts l + numAltsList rest
end

mutual
/-- Number of `TypeVar` occurrences in continuation position. -/
def numTypeVars : Local → Nat
  | .Branch _ alts => numTypeVarsList alts
  | .Select _ alts => numTypeVarsList alts
  | .Recur _ body => numTypeVars body
  | .TypeVar _ => 1
  | .End => 0
/-- The count `numTypeVars` over a list of alternatives. -/
def numTypeVarsList : List Alt → Nat
  | [] => 0
  | (_, l) :: rest => numTypeVars l + numTypeVarsList rest
end

mutual
/-- A `TypeVar` in continuation position has no lexically enclosing `Recur`
of its name; `bound` lists the names of the enclosing binders. -/
def hasUnbound (bound : List String) : Local → Bool
  | .Branch _ alts => hasUnboundList bound alts
  | .Select _ alts => hasUnboundList bound alts
  | .Recur x body => hasUnbound (x :: bound) body
  | .TypeVar x => !(bound.contains x)
  | .End => false
/-- The test `hasUnbound` over a list of alternatives. -/
def hasUnboundList (bound : List String) : List Alt → Bool
  | [] => false
  | (_, l) :: rest => hasUnbound bound l || hasUnboundList bound rest
end

/-! ## Test inputs -/

/-- The message `label(base)` with a base type payload. -/
def msg (label base : String) : Message Local := ⟨label, .base base⟩

/-- The payload type `B&{?L(T).end}` of the tests. -/
def nestedB : Local := .Branch ⟨"B"⟩ [(msg "L" "T", .End)]

/-- The type `A&{?l().end, ?(int).end, ?l2(B&{?L(T).end}).end}` of `TestBranch`. -/
def testBranch : Local :=
  .Branch ⟨"A"⟩ [(msg "l" "", .End), (msg "" "int", .End), (⟨"l2", .loc nestedB⟩, .End)]

/-- The type `*L0.A?().*L1.A&{?l().L1, ?(int).L0, ?l2(B&{?L(T).end}).end}` of
`TestRecur`. -/
def testRecur : Local :=
  .Recur "L0" (.Branch ⟨"A"⟩ [(msg "" "",
    .Recur "L1" (.Branch ⟨"A"⟩ [(msg "l" "", .TypeVar "L1"), (msg "" "int", .TypeVar "L0"),
      (⟨"l2", .loc nestedB⟩, .End)]))])

/-- The type `*T.*x.A&{?l().x, ?(int).T, ?l2(B&{?L(T).end}).end}` of
`TestRecurSimplified`. -/
def testRecurSimplified : Local :=
  .Recur "T" (.Recur "x" (.Branch ⟨"A"⟩ [(msg "l" "", .TypeVar "x"), (msg "" "int", .TypeVar "T"),
    (⟨"l2", .loc nestedB⟩, .End)]))

/-- The type `A&{?l1().end, ?l2(int).end}` of the spec. -/
def twoAlts : Local :=
  .Branch ⟨"A"⟩ [(msg "l1" "", .End), (msg "l2" "int", .End)]

/-- The type `A?().B?().end`: a chain without recursion. -/
def chain : Local :=
  .Branch ⟨"A"⟩ [(msg "" "", .Branch ⟨"B"⟩ [(msg "" "", .End)])]

/-- The type `*x.x`: a binder whose body is its own variable. -/
def loopVar : Local := .Recur "x" (.TypeVar "x")

/-- The type `*x.A&{?a().x, ?b().end}`, alternative `a` visited first. -/
def backFirst : Local :=
  .Recur "x" (.Branch ⟨"A"⟩ [(msg "a" "", .TypeVar "x"), (msg "b" "", .End)])

/-- The type `A&{?a().*x.end, ?b().x}`, alternative `a` visited first: the
variable `x` of alternative `b` has no enclosing binder. -/
def siblingVar : Local :=
  .Branch ⟨"A"⟩ [(msg "a" "", .Recur "x" .End), (msg "b" "", .TypeVar "x")]

/-- The type `*x.A&{?a().*x.B?().x, ?b().x}`, alternative `a` visited first:
the inner binder reuses the name `x`. -/
def shadowed : Local :=
  .Recur "x" (.Branch ⟨"A"⟩
    [(msg "a" "", .Recur "x" (.Branch ⟨"B"⟩ [(msg "" "", .TypeVar "x")])),
     (msg "b" "", .TypeVar "x")])

/-! ## Paths of an automaton and actions of a type -/

/-- The state `t` is reachable from `s` through the transitions `E`. -/
inductive Reach (E : List Transition) : State → State → Prop where
  | refl (s : State) : Reach E s s
  | step {s t u : State} (l : String) : Reach E s t → ⟨t, l, u⟩ ∈ E → Reach E s u

/-- The word `w` labels a path through `E` that starts at state `s`. -/
def isPath (E : List Transition) : State → List String → Bool
  | _, [] => true
  | s, l :: w => E.any fun tr => decide (tr.From = s) && decide (tr.Label = l) && isPath E tr.To w

/-- The binders entered on the way to the current position, innermost first:
each entry is a `Recur` name with its body. -/
abbrev Env := List (String × Local)

/-- The innermost binder of `x`: its body and the environment at that binder
(the binder itself included). -/
def lookupEnv : Env → String → Option (Local × Env)
  | [], _ => none
  | (y, b) :: ρ, x => if x = y then some (b, (y, b) :: ρ) else lookupEnv ρ x

/-- The word `w` is a finite sequence of actions of the type `t`, with
`Recur`/`TypeVar` unfolded: a `TypeVar` continues as the body of its
innermost lexically enclosing binder. Each action is the label the builder
emits for the alternative taken. -/
inductive Trace (render : Local → String) : Env → Local → List String → Prop where
  | nil (ρ : Env) (t : Local) : Trace render ρ t []
  | branch {ρ : Env} {r : Role} {alts : List Alt} {m : Message Local} {k : Local}
      {w : List String} :
      (m, k) ∈ alts → Trace render ρ k w →
      Trace render ρ (.Branch r alts) (recvLabel render r m :: w)
  | select {ρ : Env} {r : Role} {alts : List Alt} {m : Message Local} {k : Local}
      {w : List String} :
      (m, k) ∈ alts → Trace render ρ k w →
      Trace render ρ (.Select r alts) (sendLabel render r m :: w)
  | recur {ρ : Env} {x : String} {b : Local} {w : List String} :
      Trace render ((x, b) :: ρ) b w → Trace render ρ (.Recur x b) w
  | var {ρ ρ1 : Env} {x : String} {b : Local} {w : List String} :
      lookupEnv ρ x = some (b, ρ1) → Trace render ρ1 b w → Trace render ρ (.TypeVar x) w

/-! ## Label codec -/

/-- The class `\w` of Go regular expressions: `[0-9A-Za-z_]`. -/
def isWord (c : Char) : Bool := c.isAlphanum || c == '_'

/-- The class `\s` of Go regular expressions: `[\t\n\f\r ]`. -/
def isSpace (c : Char) : Bool :=
  c == ' ' || c == '\t' || c == '\n' || c == Char.ofNat 12 || c == '\r'

/-- The class `.` of Go regular expressions without the `s` flag: any
character but the line feed. -/
def isDot (c : Char) : Bool := c != '\n'

/-- The pieces the two label expressions are made of. -/
inductive Atom where
  /-- A greedy repetition of a character class, at least `min` times (`*` is
  `min = 0`, `+` is `min = 1`); `cap` marks a capture group around it. -/
  | rep (cap : Bool) (min : Nat) (p : Char → Bool) : Atom
  /-- One literal character. -/
  | lit (c : Char) : Atom
  /-- The anchor `$`: end of the text. -/
  | eos : Atom

/-- Greedy repetition with backtracking: take characters of class `p` as long
as possible, and give back one at a time while the continuation `k` (called
with what was taken and what is left) fails. -/
def greedy {R : Type} (p : Char → Bool) (k : List Char → List Char → Option R) :
    List Char → List Char → Option R
  | acc, [] => k acc []
  | acc, c :: cs =>
    if p c then
      match greedy p k (acc ++ [c]) cs with
      | some r => some r
      | none => k acc (c :: cs)
    else k acc (c :: cs)

/-- Match the expression at the start of the input, in the preference order
of a backtracking matcher (the leftmost-first rule of Go's `regexp`); the
result lists the text of the capture groups. -/
def matchHere : List Atom → List Char → Option (List String)
  | [], _ => some []
  | .lit c :: rest, x :: xs => if x = c then matchHere rest xs else none
  | .lit _ :: _, [] => none
  | .eos :: rest, [] => matchHere rest []
  | .eos :: _, _ :: _ => none
  | .rep cap min p :: rest, input =>
    greedy p (fun taken left =>
      if min ≤ taken.length then
        match matchHere rest left with
        | some caps => some (if cap then String.mk taken :: caps else caps)
        | none => none
      else none) [] input

/-- The leftmost match of an unanchored expression: the first start position
at which `matchHere` succeeds. The result is `FindAllStringSubmatch(s, -1)[0]`
without its entry 0, and it is `some` exactly when `MatchString` holds. -/
def findSubmatch (re : List Atom) : List Char → Option (List String)
  | [] => matchHere re []
  | c :: cs =>
    match matchHere re (c :: cs) with
    | some caps => some caps
    | none => findSubmatch re cs

/-- The expression `recv`: `(\w+)\s*\?\s*(\w*)\s*\((.*)\)$`. -/
def recv : List Atom :=
  [.rep true 1 isWord, .rep false 0 isSpace, .lit '?', .rep false 0 isSpace,
   .rep true 0 isWord, .rep false 0 isSpace, .lit '(', .rep true 0 isDot, .lit ')', .eos]

/-- The expression `send`: `(\w+)\s*!\s*(\w*)\s*\((.*)\)`. -/
def send : List Atom :=
  [.rep true 1 isWord, .rep false 0 isSpace, .lit '!', .rep false 0 isSpace,
   .rep true 0 isWord, .rep false 0 isSpace, .lit '(', .rep true 0 isDot, .lit ')']

/-- The type `dir` with its constants `Send` and `Recv`. -/
inductive Dir where
  | Send : Dir
  | Recv : Dir
deriving DecidableEq, Repr

/-- The error values of the package. -/
inductive AutError where
  | ErrInvalidLocalType : AutError
  | ErrInvalidLabel : AutError
  | ErrInconsistent : AutError
deriving DecidableEq, Repr

/-- The payload `parseLabel` stores for the captured text: the local type
`local.Parse` reads from it, or the text as a base type when parsing fails. -/
def payloadOf (parse : String → Option Local) (text : String) : Payload Local :=
  match parse text with
  | some s => .loc s
  | none => .base text

/-- The function `parseLabel`: try `recv`, then `send`; `parse` is
`local.Parse`. -/
def parseLabel (parse : String → Option Local) (label : String) :
    Except AutError (Role × Dir × Message Local) :=
  match findSubmatch recv label.data with
  | some m =>
    .ok (NewRole (m.getD 0 ""), .Recv, ⟨m.getD 1 "", payloadOf parse (m.getD 2 "")⟩)
  | none =>
    match findSubmatch send label.data with
    | some m =>
      .ok (NewRole (m.getD 0 ""), .Send, ⟨m.getD 1 "", payloadOf parse (m.getD 2 "")⟩)
    | none => .error .ErrInvalidLabel

/-! ## Automaton to type reconstructor -/

/-- One entry of `transition.edges`. -/
structure Edge where
  mesg : Message Local
  next : State

/-- The helper struct `transition`: the bundle of one source state. -/
structure transition where
  role : Role
  dir : Dir
  edges : List Edge

/-- The method `transition.addEdge`. -/
def transition.addEdge (tr : transition) (mesg : Message Local) (next : State) : transition :=
  { tr with edges := tr.edges ++ [⟨mesg, next⟩] }

/-- The two maps `trans` and `inEdges` of `ToLocal`. -/
structure Tables where
  trans : State → Option transition
  inEdges : State → Nat

/-- The maps as `make` creates them. -/
def Tables.empty : Tables := ⟨fun _ => none, fun _ => 0⟩

/-- The body of the loop of `ToLocal` for one decoded transition: create the
bundle of `From` when it does not exist, add the edge, count the in-edge. -/
def Tables.add (tb : Tables) (frm : State) (r : Role) (d : Dir) (m : Message Local)
    (next : State) : Tables :=
  let tr : transition :=
    match tb.trans frm with
    | none => { role := r, dir := d, edges := [] }
    | some tr => tr
  { trans := fun s => if s = frm then some (tr.addEdge m next) else tb.trans s,
    inEdges := fun s => if s = next then tb.inEdges s + 1 else tb.inEdges s }

/-- The loop `for _, tr := range a.Transitions` of `ToLocal`, which returns
at the first label that does not decode. -/
def scanTransitions (parse : String → Option Local) :
    List Transition → Tables → Except AutError Tables
  | [], tb => .ok tb
  | tr :: rest, tb =>
    match parseLabel parse tr.Label with
    | .error e => .error e
    | .ok (r, d, m) => scanTransitions parse rest (tb.add tr.From r d m tr.To)

/-- Equality of two payloads as keys of a Go map (`==` on the interface
values): base types and the value types `End` and `TypeVar` compare by
content, the pointer types `*Branch`, `*Select`, `*Recur` by identity, and
every decoded payload is a fresh allocation. -/
def Payload.keyEq : Payload Local → Payload Local → Bool
  | .base a, .base b => a == b
  | .loc .End, .loc .End => true
  | .loc (.TypeVar x), .loc (.TypeVar y) => x == y
  | _, _ => false

/-- Equality of two messages as keys of a Go map. -/
def Message.keyEq (a b : Message Local) : Bool :=
  a.Label == b.Label && a.Payload.keyEq b.Payload

/-- The assignment `m[mesg] = l` on the map of alternatives: an entry with
an equal key is overwritten, a new key is added. -/
def setAlt : List Alt → Message Local → Local → List Alt
  | [], k, v => [(k, v)]
  | (k1, v1) :: rest, k, v =>
    if k1.keyEq k then (k, v) :: rest else (k1, v1) :: setAlt rest k v

/-- The loop `for i := range trans[st].edges` of `stateToType`; `rebuild` is
the recursive call, which also updates the shared map `labels`. -/
def rebuildEdges (rebuild : State → (State → Option String) → Option (Local × (State → Option String))) :
    List Edge → (State → Option String) → List Alt →
    Option (List Alt × (State → Option String))
  | [], labels, m => some (m, labels)
  | e :: rest, labels, m =>
    match rebuild e.next labels with
    | none => none
    | some (l, labels1) => rebuildEdges rebuild rest labels1 (setAlt m e.mesg l)

/-- The `switch trans[st].dir` of `stateToType`. -/
def mkNode (d : Dir) (r : Role) (m : List Alt) : Local :=
  match d with
  | .Send => .Select r m
  | .Recv => .Branch r m

/-- The function `stateToType`. The Go map `labels` is shared by all the
recursive calls, so it is threaded through them and returned. The first
argument bounds the recursion depth; `none` means the bound was reached. -/
def stateToType (trans : State → Option transition) (inEdges : State → Nat) :
    Nat → State → (State → Option String) → Option (Local × (State → Option String))
  | 0, _, _ => none
  | fuel + 1, st, labels =>
    match trans st with
    | none => some (.End, labels)
    | some tr =>
      if inEdges st > 0 then
        match labels st with
        | some name => some (.TypeVar name, labels)
        | none =>
          let labels1 : State → Option String :=
            fun s => if s = st then some ("L" ++ toString st) else labels s
          match rebuildEdges (stateToType trans inEdges fuel) tr.edges labels1 [] with
          | none => none
          | some (m, labels2) =>
            some (.Recur ((labels2 st).getD "") (mkNode tr.dir tr.role m), labels2)
      else
        match rebuildEdges (stateToType trans inEdges fuel) tr.edges labels [] with
        | none => none
        | some (m, labels2) => some (mkNode tr.dir tr.role m, labels2)

/-- The function `ToLocal`: decode and group the transitions, then rebuild
from the initial state with an empty `labels` map. The outer `none` means
that the depth bound of `stateToType` was reached. -/
def ToLocal (parse : String → Option Local) (a : Aut) : Option (Except AutError Local) :=
  match scanTransitions parse a.Transitions Tables.empty with
  | .error e => some (.error e)
  | .ok tb =>
    match stateToType tb.trans tb.inEdges (a.Transitions.length + 2) a.Init (fun _ => none) with
    | none => none
    | some (l, _) => some (.ok l)


/-- The state ids that occur in the automaton: the initial state and the
endpoints of the transitions, each once. -/
def liveStates (a : Aut) : List State :=
  (a.Init :: a.Transitions.flatMap fun tr => [tr.From, tr.To]).dedup

/-- The header `des (<initial state>, <transition count>, <state count>)` of
the automaton. -/
def Aut.des (a : Aut) : State × Nat × Int := (a.Init, a.NumTransitions, a.NumStates)

/-- The type `*y.*x.A&{?a().*x.y, ?b().x}`, alternative `a` visited first. -/
def staleBinder : Local :=
  .Recur "y" (.Recur "x" (.Branch ⟨"A"⟩
    [(msg "a" "", .Recur "x" (.TypeVar "y")), (msg "b" "", .TypeVar "x")]))

/-- The role and direction of the `Branch`/`Select` node at the root of a
type, below at most one `Recur` binder. -/
def nodeHead : Local → Option (Role × Dir)
  | .Branch r _ => some (r, .Recv)
  | .Select r _ => some (r, .Send)
  | .Recur _ (.Branch r _) => some (r, .Recv)
  | .Recur _ (.Select r _) => some (r, .Send)
  | _ => none

mutual
/-- The variable `x` is referenced in continuation position outside every
binder of the same name. -/
def occursFree (x : String) : Local → Bool
  | .Branch _ alts => occursFreeList x alts
  | .Select _ alts => occursFreeList x alts
  | .Recur y body => !decide (x = y) && occursFree x body
  | .TypeVar y => decide (x = y)
  | .End => false
/-- The test `occursFree` over a list of alternatives. -/
def occursFreeList (x : String) : List Alt → Bool
  | [] => false
  | (_, l) :: rest => occursFree x l || occursFreeList x rest
end

mutual
/-- Remove every `Recur` binder whose variable is never referenced. -/
def dropUnused : Local → Local
  | .Branch r alts => .Branch r (dropUnusedList alts)
  | .Select r alts => .Select r (dropUnusedList alts)
  | .Recur x body => if occursFree x body then .Recur x (dropUnused body) else dropUnused body
  | .TypeVar x => .TypeVar x
  | .End => .End
/-- The removal `dropUnused` in every alternative. -/
def dropUnusedList : List Alt → List Alt
  | [] => []
  | (m, l) :: rest => (m, dropUnused l) :: dropUnusedList rest
end

/-- The constructor at the root of a type. -/
inductive Kind where
  | End | Branch | Select | Recur | TypeVar
deriving DecidableEq, Repr

/-- The constructor at the root of a type. -/
def Local.kind : Local → Kind
  | .End => .End
  | .Branch _ _ => .Branch
  | .Select _ _ => .Select
  | .Recur _ _ => .Recur
  | .TypeVar _ => .TypeVar

/-- The type `A?l(T).end`: a receive with one alternative. -/
def nestedRecv : Local := .Branch ⟨"A"⟩ [(msg "l" "T", .End)]

/-- The automaton `0 -a-> 1, 0 -b-> 1, 1 -c-> 2`: state 1 is the target of
two sibling edges. -/
def sharedTarget : Aut :=
  ⟨0, 3, 3, [⟨0, "A ? a()", 1⟩, ⟨0, "A ? b()", 1⟩, ⟨1, "A ? c()", 2⟩]⟩

/-- An automaton whose state 0 receives from `A` in its first transition and
sends to `B` in its second. -/
def mixedBundle : Aut :=
  ⟨0, 2, 3, [⟨0, "A ? a()", 1⟩, ⟨0, "B ! b()", 2⟩]⟩

/-- An automaton whose second transition, between states not connected to
the initial state, carries the label `garbage`. -/
def garbageLater : Aut :=
  ⟨0, 2, 9, [⟨0, "A ? a()", 1⟩, ⟨7, "garbage", 8⟩]⟩

/-- Invariant of the two maps of `ToLocal`: every edge of a bundle targets a
state with a counted in-edge. -/
def Tables.Consistent (tb : Tables) : Prop :=
  ∀ s tr, tb.trans s = some tr → ∀ e ∈ tr.edges, 0 < tb.inEdges e.next

/-- The states of `S` with an in-edge that `labels` does not bind yet: the
states `stateToType` can still wrap in a `Recur`. -/
def pending (S : Finset State) (inEdges : State → Nat) (labels : State → Option String) :
    Finset State :=
  S.filter fun s => 0 < inEdges s ∧ labels s = none

/-- The type `*L0.A&{?l().L0, ?(int).L0, ?l2(B&{?L(T).end}).end}` that
`TestRecurSimplified` compares the round trip with. -/
def simplified : Local :=
  .Recur "L0" (.Branch ⟨"A"⟩ [(msg "l" "", .TypeVar "L0"), (msg "" "int", .TypeVar "L0"),
    (⟨"l2", .loc nestedB⟩, .End)])

/-! ## Definitions for the entry point, the error text and the examples -/

/-- Modelled from the spec: the public entry point `sesstypeconv.ToAut`, whose
source file is not among the sources; it hands the type to the builder
`FromLocal` (top-level entry of the builder). -/
def ToAut (render : Local → String) (l : Local) : Option Aut := FromLocal render l

/-- The type `*x.A&{?().end, ?local(int).x}` of `TestToAut`, alternative `()`
visited first. -/
def testToAut : Local :=
  .Recur "x" (.Branch ⟨"A"⟩ [(msg "" "", .End), (msg "local" "int", .TypeVar "x")])

/-- The type of `TestToAut` with alternative `local(int)` visited first. -/
def testToAutSwapped : Local :=
  .Recur "x" (.Branch ⟨"A"⟩ [(msg "local" "int", .TypeVar "x"), (msg "" "", .End)])

/-- The text of the error values, the argument of `errors.New`. -/
def AutError.Error : AutError → String
  | .ErrInvalidLocalType => "toAut: cannot convert unknown local type"
  | .ErrInvalidLabel => "fromAut: invalid transition label"
  | .ErrInconsistent => "fromAut: transitions inconsistent"

/-- The text `needle` starts the text `hay`. -/
def startsWith : List Char → List Char → Bool
  | _, [] => true
  | [], _ :: _ => false
  | c :: cs, d :: ds => c == d && startsWith cs ds

/-- The text `needle` occurs somewhere in the text `hay`. -/
def occursIn (needle : List Char) : List Char → Bool
  | [] => needle.isEmpty
  | c :: cs => startsWith (c :: cs) needle || occursIn needle cs

/-- An automaton whose only transition carries the label `rubbish`. -/
def rubbishOnly : Aut := ⟨0, 1, 2, [⟨0, "rubbish", 1⟩]⟩

mutual
/-- Rename the recursion variables: `f` is applied to every binder and every
variable in continuation position. -/
def rename (f : String → String) : Local → Local
  | .Branch r alts => .Branch r (renameList f alts)
  | .Select r alts => .Select r (renameList f alts)
  | .Recur x body => .Recur (f x) (rename f body)
  | .TypeVar x => .TypeVar (f x)
  | .End => .End
/-- The renaming `rename` in every alternative. -/
def renameList (f : String → String) : List Alt → List Alt
  | [] => []
  | (m, l) :: rest => (m, rename f l) :: renameList f rest
end

/-- The type `*x.A?().*y.A&{?l().y, ?(int).x}`: two binders separated by a
receive. -/
def foldingInput : Local :=
  .Recur "x" (.Branch ⟨"A"⟩ [(msg "" "",
    .Recur "y" (.Branch ⟨"A"⟩ [(msg "l" "", .TypeVar "y"), (msg "" "int", .TypeVar "x")]))])

/-- The type `*x.*y.A&{?l().y, ?(int).x}`: two binders directly nested, the
shape of the input of `TestRecurSimplified`. -/
def stackedInput : Local :=
  .Recur "x" (.Recur "y" (.Branch ⟨"A"⟩
    [(msg "l" "", .TypeVar "y"), (msg "" "int", .TypeVar "x")]))

/-- The type `*L.A&{?l().L, ?(int).L}`: the simplified form. -/
def simplifiedL : Local :=
  .Recur "L" (.Branch ⟨"A"⟩ [(msg "l" "", .TypeVar "L"), (msg "" "int", .TypeVar "L")])

/-! ## The builder and the rebuild as the spec words them -/

/-- The assignment `scope[name] = st` on a scope passed as a parameter. -/
def bindScope (scope : String → Option State) (name : String) (st : State) :
    String → Option State :=
  fun x => if x = name then some st else scope x

mutual
/-- The builder as the spec words it (section 4.1): the recursion is
parameterized by the current state and by the scope mapping, so a binding
made inside one alternative ends with that alternative and a `TypeVar`
resolves to its innermost lexically enclosing binder. -/
def toAutLexical (render : Local → String) (scope : String → Option State) (c : Conv)
    (frm : State) : Local → Option (Conv × State)
  | .Branch r alts =>
    match toAutAltsLexical render (recvLabel render r) scope c frm alts with
    | none => none
    | some c1 => some (c1, frm)
  | .Select r alts =>
    match toAutAltsLexical render (sendLabel render r) scope c frm alts with
    | none => none
    | some c1 => some (c1, frm)
  | .Recur x body => toAutLexical render (bindScope scope x frm) c frm body
  | .TypeVar x =>
    match scope x with
    | none => none
    | some st => some ({ c with nstates := c.nstates - 1 }, st)
  | .End => some (c, frm)
/-- The alternatives loop of `toAutLexical`. -/
def toAutAltsLexical (render : Local → String) (lbl : Message Local → String)
    (scope : String → Option State) (c : Conv) (frm : State) : List Alt → Option Conv
  | [] => some c
  | (m, l) :: rest =>
    match toAutLexical render scope c.newState.1 c.newState.2 l with
    | none => none
    | some (c2, next) =>
      toAutAltsLexical render lbl scope (c2.AddTransition frm (lbl m) next) frm rest
end

/-- The top-level entry of the builder over `toAutLexical`. -/
def FromLocalLexical (render : Local → String) (l : Local) : Option Aut :=
  match toAutLexical render (fun _ => none) newConv.newState.1 newConv.newState.2 l with
  | none => none
  | some (c, _) =>
    some { Init := newConv.newState.2, NumTransitions := c.fsm.length,
           NumStates := c.nstates, Transitions := c.fsm }

/-- The edge loop of the rebuild with path-local bindings. -/
def rebuildEdgesPathLocal (rebuild : State → Option Local) :
    List Edge → List Alt → Option (List Alt)
  | [], m => some m
  | e :: rest, m =>
    match rebuild e.next with
    | none => none
    | some l => rebuildEdgesPathLocal rebuild rest (setAlt m e.mesg l)

/-- The rebuild as the spec words it (section 4.2): the visited bindings are
threaded along the current recursive path only, so a binding made while
rebuilding one alternative is not seen by its siblings. -/
def stateToTypePathLocal (trans : State → Option transition) (inEdges : State → Nat) :
    Nat → State → (State → Option String) → Option Local
  | 0, _, _ => none
  | fuel + 1, st, labels =>
    match trans st with
    | none => some .End
    | some tr =>
      if inEdges st > 0 then
        match labels st with
        | some name => some (.TypeVar name)
        | none =>
          let labels1 : State → Option String :=
            fun s => if s = st then some ("L" ++ toString st) else labels s
          match rebuildEdgesPathLocal (fun s => stateToTypePathLocal trans inEdges fuel s labels1)
              tr.edges [] with
          | none => none
          | some m => some (.Recur ("L" ++ toString st) (mkNode tr.dir tr.role m))
      else
        match rebuildEdgesPathLocal (fun s => stateToTypePathLocal trans inEdges fuel s labels)
            tr.edges [] with
        | none => none
        | some m => some (mkNode tr.dir tr.role m)

/-- An automaton whose initial state 1 has two incoming transitions and no
outgoing one. -/
def fanIn : Aut := ⟨1, 2, 3, [⟨0, "A ? a()", 1⟩, ⟨2, "A ? b()", 1⟩]⟩

/-! ## Definitions for the rules of the rebuild -/

/-- The name `fmt.Sprintf("L%d", int(st))` that `stateToType` gives the
binder of a state. -/
def stateName (st : State) : String := "L" ++ toString st

/-- The in-degree of a state: the number of transitions that target it. -/
def inDegree (a : Aut) (s : State) : Nat :=
  (a.Transitions.filter fun tr => tr.To = s).length

/-- The states with outgoing transitions, each once. -/
def sourceStates (a : Aut) : List State :=
  (a.Transitions.map Transition.From).dedup

/-- An automaton with a self-loop and a cycle through state 5, not an output
of the builder. -/
def loops : Aut :=
  ⟨0, 3, 6, [⟨0, "A ? a()", 0⟩, ⟨0, "B ! b()", 5⟩, ⟨5, "C ? c()", 0⟩]⟩

/-- The automaton `1 -"B ? ()"-> 2, 0 -"A ? ()"-> 1` that the builder returns
for the chain `A?().B?().end`. -/
def chainAut : Aut := ⟨0, 2, 3, [⟨1, "B ? ()", 2⟩, ⟨0, "A ? ()", 1⟩]⟩

/-- The label format of a node: `<role> ? <message>` for a `Branch` from
`r`, `<role> ! <message>` for a `Select` to `r`. -/
def nodeLabel (render : Local → String) (r : Role) (d : Dir) : Message Local → String :=
  match d with
  | .Recv => recvLabel render r
  | .Send => sendLabel render r

/-- The label was emitted in the format of a node with role `r` and
direction `d`. -/
def emittedBy (render : Local → String) (r : Role) (d : Dir) (label : String) : Prop :=
  ∃ m, label = nodeLabel render r d m

/-! ## Definitions for the shape of the rebuilt binders -/

mutual
/-- The names of the `Recur` binders of a type, in continuation position. -/
def binderNames : Local → List String
  | .Branch _ alts => binderNamesList alts
  | .Select _ alts => binderNamesList alts
  | .Recur x body => x :: binderNames body
  | .TypeVar _ => []
  | .End => []
/-- The names `binderNames` over a list of alternatives. -/
def binderNamesList : List Alt → List String
  | [] => []
  | (_, l) :: rest => binderNames l ++ binderNamesList rest
end

mutual
/-- The names of the `TypeVar` occurrences of a type, in continuation
position. -/
def varNames : Local → List String
  | .Branch _ alts => varNamesList alts
  | .Select _ alts => varNamesList alts
  | .Recur _ body => varNames body
  | .TypeVar x => [x]
  | .End => []
/-- The names `varNames` over a list of alternatives. -/
def varNamesList : List Alt → List String
  | [] => []
  | (_, l) :: rest => varNames l ++ varNamesList rest
end

/-- The type is a `Branch` or a `Select`. -/
def Local.isNode : Local → Bool
  | .Branch _ _ => true
  | .Select _ _ => true
  | _ => false

mutual
/-- Every `Recur` of the type, in continuation position, directly wraps a
`Branch` or a `Select`. -/
def recurWrapsNode : Local → Bool
  | .Branch _ alts => recurWrapsNodeList alts
  | .Select _ alts => recurWrapsNodeList alts
  | .Recur _ body => body.isNode && recurWrapsNode body
  | .TypeVar _ => true
  | .End => true
/-- The test `recurWrapsNode` over a list of alternatives. -/
def recurWrapsNodeList : List Alt → Bool
  | [] => true
  | (_, l) :: rest => recurWrapsNode l && recurWrapsNodeList rest
end

/-- The value of a decimal digit character. -/
def digitVal (c : Char) : Nat := c.toNat - 48

/-- The number a list of decimal digits writes. -/
def numVal (cs : List Char) : Nat := cs.foldl (fun acc c => acc * 10 + digitVal c) 0

/-- Every binding of the map `labels` gives a state with an in-edge its own
name. -/
def WellNamed (inEdges : State → Nat) (L : State → Option String) : Prop :=
  ∀ s n, L s = some n → n = stateName s ∧ 0 < inEdges s

/-- The shape of a type rebuilt while the bindings went from `L` to `L1`:
binders wrap nodes, the binders are those of the states bound in between,
each once, and the variables name states with an in-edge. -/
def GoodType (inEdges : State → Nat) (L L1 : State → Option String) (l : Local) : Prop :=
  recurWrapsNode l = true ∧ (binderNames l).Nodup ∧
  (∀ n ∈ binderNames l, ∃ s, n = stateName s ∧ L s = none ∧ L1 s ≠ none) ∧
  (∀ n ∈ varNames l, ∃ s, n = stateName s ∧ 0 < inEdges s)

/-- The shape `GoodType` for the alternatives collected by the edge loop. -/
def GoodAlts (inEdges : State → Nat) (L L1 : State → Option String) (m : List Alt) : Prop :=
  recurWrapsNodeList m = true ∧ (binderNamesList m).Nodup ∧
  (∀ n ∈ binderNamesList m, ∃ s, n = stateName s ∧ L s = none ∧ L1 s ≠ none) ∧
  (∀ n ∈ varNamesList m, ∃ s, n = stateName s ∧ 0 < inEdges s)

/-- The type `R!{m(A?l(T).end).end, n(int).end}`: a `Select` to `R` whose
first message carries the receive type `A?l(T).end`. -/
def selectMixed : Local :=
  .Select ⟨"R"⟩ [(⟨"m", .loc nestedRecv⟩, .End), (msg "n" "int", .End)]

/-- The automaton `0 -"R ! m(A?l(T).end)"-> 1, 0 -"R ! n(int)"-> 2` that the
builder returns for `selectMixed`. -/
def selectMixedAut : Aut :=
  ⟨0, 2, 3, [⟨0, "R ! m(A?l(T).end)", 1⟩, ⟨0, "R ! n(int)", 2⟩]⟩

/-! # Theorems -/

/-! ## Counters of the builder -/

mutual
/-- Effect of `toAut` on the transition list and the two counters. -/
theorem toAut_counts (render : Local → String) :
    ∀ (t : Local) (c : Conv) (frm : State) (c1 : Conv) (next : State),
      toAut render c frm t = some (c1, next) →
      c1.fsm.length = c.fsm.length + numAlts t ∧
      c1.nstates = c.nstates + (numAlts t : Int) - (numTypeVars t : Int) ∧
      c1.nextstate = c.nextstate + numAlts t
  | .End, c, frm, c1, next, h => by
    simp only [toAut, Option.some.injEq, Prod.mk.injEq] at h
    obtain ⟨rfl, -⟩ := h
    simp [numAlts, numTypeVars]
  | .TypeVar x, c, frm, c1, next, h => by
    simp only [toAut] at h
    cases hs : c.scope x with
    | none => simp [hs] at h
    | some st =>
      simp only [hs, Option.some.injEq, Prod.mk.injEq] at h
      obtain ⟨rfl, -⟩ := h
      simp [numAlts, numTypeVars]
  | .Recur x body, c, frm, c1, next, h => by
    simp only [toAut] at h
    have ih := toAut_counts render body (c.bind x frm) frm c1 next h
    simpa [numAlts, numTypeVars, Conv.bind] using ih
  | .Branch r alts, c, frm, c1, next, h => by
    simp only [toAut] at h
    cases hs : toAutAlts render (recvLabel render r) c frm alts with
    | none => simp [hs] at h
    | some c2 =>
      simp only [hs, Option.some.injEq, Prod.mk.injEq] at h
      obtain ⟨rfl, -⟩ := h
      simpa [numAlts, numTypeVars] using toAutAlts_counts render alts _ c frm c2 hs
  | .Select r alts, c, frm, c1, next, h => by
    simp only [toAut] at h
    cases hs : toAutAlts render (sendLabel render r) c frm alts with
    | none => simp [hs] at h
    | some c2 =>
      simp only [hs, Option.some.injEq, Prod.mk.injEq] at h
      obtain ⟨rfl, -⟩ := h
      simpa [numAlts, numTypeVars] using toAutAlts_counts render alts _ c frm c2 hs
/-- Effect of the alternatives loop on the transition list and the counters. -/
theorem toAutAlts_counts (render : Local → String) :
    ∀ (alts : List Alt) (lbl : Message Local → String) (c : Conv) (frm : State) (c1 : Conv),
      toAutAlts render lbl c frm alts = some c1 →
      c1.fsm.length = c.fsm.length + numAltsList alts ∧
      c1.nstates = c.nstates + (numAltsList alts : Int) - (numTypeVarsList alts : Int) ∧
      c1.nextstate = c.nextstate + numAltsList alts
  | [], lbl, c, frm, c1, h => by
    simp only [toAutAlts, Option.some.injEq] at h
    subst h
    simp [numAltsList, numTypeVarsList]
  | (m, l) :: rest, lbl, c, frm, c1, h => by
    simp only [toAutAlts] at h
    cases hs : toAut render c.newState.1 c.newState.2 l with
    | none => simp [hs] at h
    | some p =>
      obtain ⟨c2, next⟩ := p
      simp only [hs] at h
      have ih1 := toAut_counts render l _ _ c2 next hs
      have ih2 := toAutAlts_counts render rest lbl _ frm c1 h
      simp only [Conv.AddTransition, Conv.newState, List.length_append, List.length_singleton]
        at ih1 ih2
      simp only [numAltsList, numTypeVarsList]
      push_cast
      omega
end

/-! ## Reachability in the built automaton -/

theorem Reach.mono {E E1 : List Transition} (hsub : ∀ e ∈ E, e ∈ E1) {s t : State}
    (h : Reach E s t) : Reach E1 s t := by
  induction h with
  | refl => exact Reach.refl _
  | step l _ he ih => exact Reach.step l ih (hsub _ he)

theorem Reach.trans {E : List Transition} {s t u : State} (h1 : Reach E s t)
    (h2 : Reach E t u) : Reach E s u := by
  induction h2 with
  | refl => exact h1
  | step l _ he ih => exact Reach.step l ih he

mutual
/-- The transitions `toAut` adds start at states reachable from the current
state through the added transitions; a result state other than the current
one comes with no added transition. -/
theorem toAut_reach (render : Local → String) :
    ∀ (t : Local) (c : Conv) (frm : State) (c1 : Conv) (next : State),
      toAut render c frm t = some (c1, next) →
      ∃ added, c1.fsm = c.fsm ++ added ∧ (next = frm ∨ added = []) ∧
        ∀ tr ∈ added, Reach added frm tr.From
  | .End, c, frm, c1, next, h => by
    simp only [toAut, Option.some.injEq, Prod.mk.injEq] at h
    obtain ⟨rfl, rfl⟩ := h
    exact ⟨[], by simp, Or.inl rfl, by simp⟩
  | .TypeVar x, c, frm, c1, next, h => by
    simp only [toAut] at h
    cases hs : c.scope x with
    | none => simp [hs] at h
    | some st =>
      simp only [hs, Option.some.injEq, Prod.mk.injEq] at h
      obtain ⟨rfl, rfl⟩ := h
      exact ⟨[], by simp, Or.inr rfl, by simp⟩
  | .Recur x body, c, frm, c1, next, h => by
    simp only [toAut] at h
    simpa [Conv.bind] using toAut_reach render body (c.bind x frm) frm c1 next h
  | .Branch r alts, c, frm, c1, next, h => by
    simp only [toAut] at h
    cases hs : toAutAlts render (recvLabel render r) c frm alts with
    | none => simp [hs] at h
    | some c2 =>
      simp only [hs, Option.some.injEq, Prod.mk.injEq] at h
      obtain ⟨rfl, rfl⟩ := h
      obtain ⟨added, h1, h2⟩ := toAutAlts_reach render alts _ c frm c2 hs
      exact ⟨added, h1, Or.inl rfl, h2⟩
  | .Select r alts, c, frm, c1, next, h => by
    simp only [toAut] at h
    cases hs : toAutAlts render (sendLabel render r) c frm alts with
    | none => simp [hs] at h
    | some c2 =>
      simp only [hs, Option.some.injEq, Prod.mk.injEq] at h
      obtain ⟨rfl, rfl⟩ := h
      obtain ⟨added, h1, h2⟩ := toAutAlts_reach render alts _ c frm c2 hs
      exact ⟨added, h1, Or.inl rfl, h2⟩
/-- The transitions the alternatives loop adds start at states reachable
from the current state through the added transitions. -/
theorem toAutAlts_reach (render : Local → String) :
    ∀ (alts : List Alt) (lbl : Message Local → String) (c : Conv) (frm : State) (c1 : Conv),
      toAutAlts render lbl c frm alts = some c1 →
      ∃ added, c1.fsm = c.fsm ++ added ∧ ∀ tr ∈ added, Reach added frm tr.From
  | [], lbl, c, frm, c1, h => by
    simp only [toAutAlts, Option.some.injEq] at h
    subst h
    exact ⟨[], by simp, by simp⟩
  | (m, l) :: rest, lbl, c, frm, c1, h => by
    simp only [toAutAlts] at h
    cases hs : toAut render c.newState.1 c.newState.2 l with
    | none => simp [hs] at h
    | some p =>
      obtain ⟨c2, next⟩ := p
      simp only [hs] at h
      obtain ⟨addL, hL, hnext, hreachL⟩ := toAut_reach render l _ _ c2 next hs
      obtain ⟨addR, hR, hreachR⟩ := toAutAlts_reach render rest lbl _ frm c1 h
      refine ⟨addL ++ [⟨frm, lbl m, next⟩] ++ addR, ?_, ?_⟩
      · rw [hR]
        simp only [Conv.AddTransition, hL, Conv.newState, List.append_assoc]
      · intro tr htr
        simp only [List.append_assoc, List.mem_append, List.mem_singleton] at htr
        rcases htr with htr | htr | htr
        · have hne : addL ≠ [] := List.ne_nil_of_mem htr
          have hst : next = c.newState.2 := by
            rcases hnext with h1 | h1
            · exact h1
            · exact absurd h1 hne
          have hedge : Reach (addL ++ [⟨frm, lbl m, next⟩] ++ addR) frm c.newState.2 := by
            rw [← hst]
            exact Reach.step (lbl m) (Reach.refl frm) (by simp)
          exact hedge.trans ((hreachL tr htr).mono (by intro e he; simp [he]))
        · subst htr
          exact Reach.refl _
        · exact (hreachR tr htr).mono (by intro e he; simp [he])
end


/-! ## Success of the builder on closed types -/

mutual
/-- The builder does not abort on a type whose free variables are all in
`scope`, and it never removes a name from `scope`. -/
theorem toAut_closed (render : Local → String) :
    ∀ (t : Local) (bound : List String) (c : Conv) (frm : State),
      hasUnbound bound t = false → (∀ x ∈ bound, c.scope x ≠ none) →
      ∃ c1 next, toAut render c frm t = some (c1, next) ∧
        ∀ x, c.scope x ≠ none → c1.scope x ≠ none
  | .End, bound, c, frm, _, _ => ⟨c, frm, by simp [toAut], fun _ h => h⟩
  | .TypeVar x, bound, c, frm, hc, hb => by
    have hx : x ∈ bound := by simpa [hasUnbound] using hc
    cases hs : c.scope x with
    | none => exact absurd hs (hb x hx)
    | some st => exact ⟨{ c with nstates := c.nstates - 1 }, st, by simp [toAut, hs], fun _ h => h⟩
  | .Recur x body, bound, c, frm, hc, hb => by
    have hc1 : hasUnbound (x :: bound) body = false := by simpa [hasUnbound] using hc
    have hb1 : ∀ y ∈ x :: bound, (c.bind x frm).scope y ≠ none := by
      intro y hy
      by_cases hyx : y = x
      · simp [Conv.bind, hyx]
      · have : y ∈ bound := by simpa [hyx] using hy
        simpa [Conv.bind, hyx] using hb y this
    obtain ⟨c1, next, h1, h2⟩ := toAut_closed render body (x :: bound) (c.bind x frm) frm hc1 hb1
    refine ⟨c1, next, by simpa [toAut] using h1, ?_⟩
    intro y hy
    apply h2
    by_cases hyx : y = x
    · simp [Conv.bind, hyx]
    · simpa [Conv.bind, hyx] using hy
  | .Branch r alts, bound, c, frm, hc, hb => by
    have hc1 : hasUnboundList bound alts = false := by simpa [hasUnbound] using hc
    obtain ⟨c1, h1, h2⟩ := toAutAlts_closed render alts (recvLabel render r) bound c frm hc1 hb
    exact ⟨c1, frm, by simp [toAut, h1], h2⟩
  | .Select r alts, bound, c, frm, hc, hb => by
    have hc1 : hasUnboundList bound alts = false := by simpa [hasUnbound] using hc
    obtain ⟨c1, h1, h2⟩ := toAutAlts_closed render alts (sendLabel render r) bound c frm hc1 hb
    exact ⟨c1, frm, by simp [toAut, h1], h2⟩
/-- The alternatives loop does not abort on closed alternatives. -/
theorem toAutAlts_closed (render : Local → String) :
    ∀ (alts : List Alt) (lbl : Message Local → String) (bound : List String) (c : Conv)
      (frm : State),
      hasUnboundList bound alts = false → (∀ x ∈ bound, c.scope x ≠ none) →
      ∃ c1, toAutAlts render lbl c frm alts = some c1 ∧
        ∀ x, c.scope x ≠ none → c1.scope x ≠ none
  | [], lbl, bound, c, frm, _, _ => ⟨c, by simp [toAutAlts], fun _ h => h⟩
  | (m, l) :: rest, lbl, bound, c, frm, hc, hb => by
    have hc1 : hasUnbound bound l = false ∧ hasUnboundList bound rest = false := by
      simpa [hasUnboundList] using hc
    obtain ⟨c2, next, h1, h2⟩ :=
      toAut_closed render l bound c.newState.1 c.newState.2 hc1.1 (by simpa [Conv.newState] using hb)
    have hb2 : ∀ x ∈ bound, (c2.AddTransition frm (lbl m) next).scope x ≠ none := by
      intro x hx
      have := h2 x (by simpa [Conv.newState] using hb x hx)
      simpa [Conv.AddTransition] using this
    obtain ⟨c1, h3, h4⟩ := toAutAlts_closed render rest lbl bound _ frm hc1.2 hb2
    refine ⟨c1, by simp [toAutAlts, h1, h3], ?_⟩
    intro x hx
    apply h4
    have := h2 x (by simpa [Conv.newState] using hx)
    simpa [Conv.AddTransition] using this
end

/-- The builder returns an automaton for every type without unbound
variable. -/
theorem FromLocal_closed (render : Local → String) (t : Local)
    (hc : hasUnbound [] t = false) : ∃ a, FromLocal render t = some a := by
  obtain ⟨c1, next, h1, -⟩ :=
    toAut_closed render t [] newConv.newState.1 newConv.newState.2 hc (by simp)
  exact ⟨{ Init := newConv.newState.2, NumTransitions := c1.fsm.length,
           NumStates := c1.nstates, Transitions := c1.fsm }, by simp [FromLocal, h1]⟩


/-- Every live state of a built automaton is reachable from its initial
state. -/
theorem FromLocal_reach (render : Local → String) (t : Local) (a : Aut)
    (h : FromLocal render t = some a) : ∀ s ∈ liveStates a, Reach a.Transitions a.Init s := by
  unfold FromLocal at h
  cases hs : toAut render newConv.newState.1 newConv.newState.2 t with
  | none => simp [hs] at h
  | some p =>
    obtain ⟨c, next⟩ := p
    simp only [hs, Option.some.injEq] at h
    subst h
    obtain ⟨added, hfsm, -, hreach⟩ := toAut_reach render t _ _ c next hs
    have hfsm1 : c.fsm = added := by simpa [newConv, Conv.newState] using hfsm
    intro s hsmem
    simp only [liveStates, List.mem_dedup, List.mem_cons, List.mem_flatMap,
      List.mem_singleton, List.not_mem_nil, or_false] at hsmem
    rcases hsmem with rfl | ⟨tr, htr, rfl | rfl⟩
    · exact Reach.refl _
    · simpa [hfsm1] using hreach tr (hfsm1 ▸ htr)
    · have h1 : Reach c.fsm newConv.newState.2 tr.From := by
        simpa [hfsm1] using hreach tr (hfsm1 ▸ htr)
      exact Reach.step tr.Label h1 htr

/-- A state reached from `s` is `s` or the target of a transition. -/
theorem Reach.target {E : List Transition} {s t : State} (h : Reach E s t) :
    t = s ∨ ∃ tr ∈ E, tr.To = t := by
  cases h with
  | refl => exact Or.inl rfl
  | step l _ he => exact Or.inr ⟨_, he, rfl⟩

/-! ## State ids stay below the allocation counter -/

mutual
/-- The state ids `toAut` uses (endpoints of added transitions, the result
state, the values of `scope`) stay below `nextstate`, which never decreases. -/
theorem toAut_bound (render : Local → String) :
    ∀ (t : Local) (c : Conv) (frm : State) (c1 : Conv) (next : State),
      toAut render c frm t = some (c1, next) → frm < c.nextstate →
      (∀ x st, c.scope x = some st → st < c.nextstate) →
      (∀ tr ∈ c.fsm, tr.From < c.nextstate ∧ tr.To < c.nextstate) →
      c.nextstate ≤ c1.nextstate ∧ next < c1.nextstate ∧
      (∀ x st, c1.scope x = some st → st < c1.nextstate) ∧
      (∀ tr ∈ c1.fsm, tr.From < c1.nextstate ∧ tr.To < c1.nextstate)
  | .End, c, frm, c1, next, h, hfrm, hscope, hfsm => by
    simp only [toAut, Option.some.injEq, Prod.mk.injEq] at h
    obtain ⟨rfl, rfl⟩ := h
    exact ⟨le_refl _, hfrm, hscope, hfsm⟩
  | .TypeVar x, c, frm, c1, next, h, hfrm, hscope, hfsm => by
    simp only [toAut] at h
    cases hs : c.scope x with
    | none => simp [hs] at h
    | some st =>
      simp only [hs, Option.some.injEq, Prod.mk.injEq] at h
      obtain ⟨rfl, rfl⟩ := h
      exact ⟨le_refl _, hscope x st hs, hscope, hfsm⟩
  | .Recur x body, c, frm, c1, next, h, hfrm, hscope, hfsm => by
    simp only [toAut] at h
    have hscope1 : ∀ y st, (c.bind x frm).scope y = some st → st < (c.bind x frm).nextstate := by
      intro y st hy
      by_cases hyx : y = x
      · simp only [Conv.bind, hyx, if_true, Option.some.injEq] at hy
        subst hy
        exact hfrm
      · simp only [Conv.bind, hyx, if_false] at hy
        exact hscope y st hy
    exact toAut_bound render body (c.bind x frm) frm c1 next h hfrm hscope1 hfsm
  | .Branch r alts, c, frm, c1, next, h, hfrm, hscope, hfsm => by
    simp only [toAut] at h
    cases hs : toAutAlts render (recvLabel render r) c frm alts with
    | none => simp [hs] at h
    | some c2 =>
      simp only [hs, Option.some.injEq, Prod.mk.injEq] at h
      obtain ⟨rfl, rfl⟩ := h
      obtain ⟨h1, h2, h3⟩ := toAutAlts_bound render alts _ c frm c2 hs hfrm hscope hfsm
      exact ⟨h1, lt_of_lt_of_le hfrm h1, h2, h3⟩
  | .Select r alts, c, frm, c1, next, h, hfrm, hscope, hfsm => by
    simp only [toAut] at h
    cases hs : toAutAlts render (sendLabel render r) c frm alts with
    | none => simp [hs] at h
    | some c2 =>
      simp only [hs, Option.some.injEq, Prod.mk.injEq] at h
      obtain ⟨rfl, rfl⟩ := h
      obtain ⟨h1, h2, h3⟩ := toAutAlts_bound render alts _ c frm c2 hs hfrm hscope hfsm
      exact ⟨h1, lt_of_lt_of_le hfrm h1, h2, h3⟩
/-- The state ids the alternatives loop uses stay below `nextstate`. -/
theorem toAutAlts_bound (render : Local → String) :
    ∀ (alts : List Alt) (lbl : Message Local → String) (c : Conv) (frm : State) (c1 : Conv),
      toAutAlts render lbl c frm alts = some c1 → frm < c.nextstate →
      (∀ x st, c.scope x = some st → st < c.nextstate) →
      (∀ tr ∈ c.fsm, tr.From < c.nextstate ∧ tr.To < c.nextstate) →
      c.nextstate ≤ c1.nextstate ∧
      (∀ x st, c1.scope x = some st → st < c1.nextstate) ∧
      (∀ tr ∈ c1.fsm, tr.From < c1.nextstate ∧ tr.To < c1.nextstate)
  | [], lbl, c, frm, c1, h, hfrm, hscope, hfsm => by
    simp only [toAutAlts, Option.some.injEq] at h
    subst h
    exact ⟨le_refl _, hscope, hfsm⟩
  | (m, l) :: rest, lbl, c, frm, c1, h, hfrm, hscope, hfsm => by
    simp only [toAutAlts] at h
    cases hs : toAut render c.newState.1 c.newState.2 l with
    | none => simp [hs] at h
    | some p =>
      obtain ⟨c2, next⟩ := p
      simp only [hs] at h
      have hnew : c.newState.1.nextstate = c.nextstate + 1 := rfl
      obtain ⟨h1, h2, h3, h4⟩ := toAut_bound render l c.newState.1 c.newState.2 c2 next hs
        (by simp [Conv.newState])
        (fun x st hx => Nat.lt_succ_of_lt (hscope x st hx))
        (fun tr htr => ⟨Nat.lt_succ_of_lt (hfsm tr htr).1, Nat.lt_succ_of_lt (hfsm tr htr).2⟩)
      rw [hnew] at h1
      have hfsm2 : ∀ tr ∈ (c2.AddTransition frm (lbl m) next).fsm,
          tr.From < (c2.AddTransition frm (lbl m) next).nextstate ∧
          tr.To < (c2.AddTransition frm (lbl m) next).nextstate := by
        intro tr htr
        simp only [Conv.AddTransition, List.mem_append, List.mem_singleton] at htr ⊢
        rcases htr with htr | rfl
        · exact h4 tr htr
        · exact ⟨Nat.lt_of_lt_of_le hfrm (by omega), h2⟩
      obtain ⟨h5, h6, h7⟩ := toAutAlts_bound render rest lbl _ frm c1 h
        (Nat.lt_of_lt_of_le hfrm (show c.nextstate ≤ c2.nextstate by omega)) h3 hfsm2
      simp only [Conv.AddTransition] at h5
      exact ⟨by omega, h6, h7⟩
end

/-- Every live state of a built automaton is below the number of allocated
ids, 1 + the number of alternatives. -/
theorem FromLocal_bound (render : Local → String) (t : Local) (a : Aut)
    (h : FromLocal render t = some a) : ∀ s ∈ liveStates a, s < 1 + numAlts t := by
  unfold FromLocal at h
  cases hs : toAut render newConv.newState.1 newConv.newState.2 t with
  | none => simp [hs] at h
  | some p =>
    obtain ⟨c, next⟩ := p
    simp only [hs, Option.some.injEq] at h
    subst h
    obtain ⟨h1, -, -, h4⟩ := toAut_bound render t _ _ c next hs
      (by simp [newConv, Conv.newState]) (by simp [newConv, Conv.newState])
      (by simp [newConv, Conv.newState])
    obtain ⟨-, -, hn⟩ := toAut_counts render t _ _ c next hs
    simp only [newConv, Conv.newState] at hn h1
    intro s hsmem
    simp only [liveStates, List.mem_dedup, List.mem_cons, List.mem_flatMap,
      List.mem_singleton, List.not_mem_nil, or_false] at hsmem
    rcases hsmem with rfl | ⟨tr, htr, rfl | rfl⟩
    · simp [newConv, Conv.newState]
    · exact Nat.lt_of_lt_of_le (h4 tr htr).1 (by omega)
    · exact Nat.lt_of_lt_of_le (h4 tr htr).2 (by omega)

/-! ## Inversion of the action sequences -/

theorem Trace.recur_inv {render : Local → String} {ρ : Env} {x : String} {b : Local}
    {w : List String} (h : Trace render ρ (.Recur x b) w) (hw : w ≠ []) :
    Trace render ((x, b) :: ρ) b w := by
  cases h with
  | nil => exact absurd rfl hw
  | recur h1 => exact h1

theorem Trace.var_inv {render : Local → String} {ρ : Env} {x : String}
    {w : List String} (h : Trace render ρ (.TypeVar x) w) (hw : w ≠ []) :
    ∃ b ρ1, lookupEnv ρ x = some (b, ρ1) ∧ Trace render ρ1 b w := by
  cases h with
  | nil => exact absurd rfl hw
  | var h1 h2 => exact ⟨_, _, h1, h2⟩

theorem Trace.branch_inv {render : Local → String} {ρ : Env} {r : Role} {alts : List Alt}
    {l : String} {w : List String} (h : Trace render ρ (.Branch r alts) (l :: w)) :
    ∃ m k, (m, k) ∈ alts ∧ l = recvLabel render r m ∧ Trace render ρ k w := by
  generalize hw : l :: w = w1 at h
  cases h with
  | nil => simp at hw
  | branch h1 h2 =>
    simp only [List.cons.injEq] at hw
    exact ⟨_, _, h1, hw.1, hw.2 ▸ h2⟩

/-! ## Claims on the builder -/

/-- C4: when the builder succeeds, the automaton declares initial state 0, a
transition count equal to the length of the transition list and to the number
of alternatives of the type in continuation position, and a state count of
1 + alternatives - TypeVar occurrences; a `Recur` binder adds no state; the
counts of `end`, of `A&{?l1().end, ?l2(int).end}` and of the types of
`TestBranch` and `TestRecurSimplified` are (1, 0), (3, 2), (4, 3), (2, 3). -/
theorem FromLocal_des_counts :
    (∀ (render : Local → String) (t : Local) (a : Aut), FromLocal render t = some a →
      a.Init = 0 ∧ a.NumTransitions = a.Transitions.length ∧ a.NumTransitions = numAlts t ∧
      a.NumStates = 1 + (numAlts t : Int) - (numTypeVars t : Int)) ∧
    (∀ (render : Local → String) (x : String) (body : Local) (a b : Aut),
      FromLocal render (.Recur x body) = some a → FromLocal render body = some b →
      a.NumStates = b.NumStates ∧ a.NumTransitions = b.NumTransitions) ∧
    (∀ render, (FromLocal render .End).map Aut.des = some (0, 0, 1)) ∧
    (∀ render, (FromLocal render twoAlts).map Aut.des = some (0, 2, 3)) ∧
    (∀ render, (FromLocal render testBranch).map Aut.des = some (0, 3, 4)) ∧
    (∀ render, (FromLocal render testRecurSimplified).map Aut.des = some (0, 3, 2)) := by
  have key : ∀ (render : Local → String) (t : Local) (a : Aut), FromLocal render t = some a →
      a.Init = 0 ∧ a.NumTransitions = a.Transitions.length ∧ a.NumTransitions = numAlts t ∧
      a.NumStates = 1 + (numAlts t : Int) - (numTypeVars t : Int) := by
    intro render t a h
    unfold FromLocal at h
    cases hs : toAut render newConv.newState.1 newConv.newState.2 t with
    | none => simp [hs] at h
    | some p =>
      obtain ⟨c, next⟩ := p
      simp only [hs, Option.some.injEq] at h
      subst h
      obtain ⟨h1, h2, -⟩ := toAut_counts render t _ _ c next hs
      simp only [newConv, Conv.newState, List.length_nil, Nat.zero_add, Int.zero_add] at h1 h2
      exact ⟨rfl, rfl, h1, by rw [h2]⟩
  refine ⟨key, ?_, fun _ => rfl, fun _ => rfl, fun _ => rfl, fun _ => rfl⟩
  intro render x body a b ha hb
  obtain ⟨-, -, ha3, ha4⟩ := key render _ a ha
  obtain ⟨-, -, hb3, hb4⟩ := key render _ b hb
  simp only [numAlts, numTypeVars] at ha3 ha4
  exact ⟨by rw [ha4, hb4], by rw [ha3, hb3]⟩

/-- The general part of `FromLocal_des_counts` at the type of `TestRecurSimplified`. -/
theorem FromLocal_des_counts_witness :
    FromLocal (fun _ => "B&{?L(T).end}") testRecurSimplified =
      some ⟨0, 3, 2, [⟨0, "A ? l()", 0⟩, ⟨0, "A ? (int)", 0⟩, ⟨0, "A ? l2(B&{?L(T).end})", 3⟩]⟩ ∧
    ((0 : State) = 0 ∧ 3 = [(⟨0, "A ? l()", 0⟩ : Transition), ⟨0, "A ? (int)", 0⟩,
        ⟨0, "A ? l2(B&{?L(T).end})", 3⟩].length ∧ 3 = numAlts testRecurSimplified ∧
      (2 : Int) = 1 + (numAlts testRecurSimplified : Int) - (numTypeVars testRecurSimplified : Int)) :=
  ⟨rfl, FromLocal_des_counts.1 (fun _ => "B&{?L(T).end}") testRecurSimplified _ rfl⟩

/-- C3: the declared state count can differ from the number of live states.
The closed type `*x.x` gives a declared count of 0 with the initial state
live, and the closed type `*y.*x.A&{?a().*x.y, ?b().x}` (alternative `a`
first) gives a declared count of 1 with two live states. -/
theorem FromLocal_state_count_mismatch :
    hasUnbound [] loopVar = false ∧
    (∀ render, ∃ a, FromLocal render loopVar = some a ∧ a.NumStates = 0 ∧
      (liveStates a).length = 1) ∧
    hasUnbound [] staleBinder = false ∧
    (∀ render, ∃ a, FromLocal render staleBinder = some a ∧ a.NumStates = 1 ∧
      (liveStates a).length = 2) := by
  refine ⟨rfl, fun _ => ⟨⟨0, 0, 0, []⟩, rfl, rfl, by decide⟩, rfl, fun _ =>
    ⟨⟨0, 2, 1, [⟨0, "A ? a()", 0⟩, ⟨0, "A ? b()", 1⟩]⟩, rfl, rfl, by decide⟩⟩

/-- C5 (counterexample): for the closed type `*x.A&{?a().x, ?b().end}` with
alternative `a` visited first, the state id 1 is below the declared state
count 2 and is not reachable from the initial state. -/
theorem FromLocal_gap_counterexample :
    hasUnbound [] backFirst = false ∧
    ∀ render, ∃ a, FromLocal render backFirst = some a ∧
      (0 : Int) ≤ 1 ∧ (1 : Int) < a.NumStates ∧ ¬ Reach a.Transitions a.Init 1 := by
  refine ⟨rfl, fun _ => ⟨⟨0, 2, 2, [⟨0, "A ? a()", 0⟩, ⟨0, "A ? b()", 2⟩]⟩, rfl, by decide,
    by decide, ?_⟩⟩
  intro h
  rcases h.target with h1 | ⟨tr, htr, h1⟩
  · exact absurd h1 (by decide)
  · simp only [List.mem_cons, List.mem_singleton, List.not_mem_nil, or_false] at htr
    rcases htr with rfl | rfl <;> exact absurd h1 (by decide)

/-- C5 (amended): for every type without unbound variable the builder returns
an automaton in which every state id that occurs (the initial state or an
endpoint of a transition) is reachable from the initial state and is below
the number of allocated ids, 1 + the number of alternatives. -/
theorem FromLocal_live_reachable (render : Local → String) (t : Local)
    (hc : hasUnbound [] t = false) :
    ∃ a, FromLocal render t = some a ∧
      ∀ s ∈ liveStates a, Reach a.Transitions a.Init s ∧ s < 1 + numAlts t := by
  obtain ⟨a, ha⟩ := FromLocal_closed render t hc
  exact ⟨a, ha, fun s hs => ⟨FromLocal_reach render t a ha s hs, FromLocal_bound render t a ha s hs⟩⟩

/-- The theorem `FromLocal_live_reachable` at the type of `TestRecur`. -/
theorem FromLocal_live_reachable_witness :
    hasUnbound [] testRecur = false ∧
    ∃ a, FromLocal (fun _ => "B&{?L(T).end}") testRecur = some a ∧
      ∀ s ∈ liveStates a, Reach a.Transitions a.Init s ∧ s < 1 + numAlts testRecur :=
  ⟨rfl, FromLocal_live_reachable (fun _ => "B&{?L(T).end}") testRecur rfl⟩

/-- C6: the type `A&{?a().*x.end, ?b().x}` has a `TypeVar(x)` without
enclosing `Recur(x)`, and with alternative `a` visited first the builder does
not abort: it returns an automaton whose `b` edge targets the state of the
sibling binder. With `b` visited first it aborts. -/
theorem FromLocal_sibling_binder_not_detected :
    hasUnbound [] siblingVar = true ∧
    (∀ render, FromLocal render siblingVar =
      some ⟨0, 2, 2, [⟨0, "A ? a()", 1⟩, ⟨0, "A ? b()", 1⟩]⟩) ∧
    (∀ render, FromLocal render
      (.Branch ⟨"A"⟩ [(msg "b" "", .TypeVar "x"), (msg "a" "", .Recur "x" .End)]) = none) :=
  ⟨rfl, fun _ => rfl, fun _ => rfl⟩

/-- C2: for the closed type `*x.A&{?a().*x.B?().x, ?b().x}` with alternative
`a` visited first, the word `A ? b()`, `B ? ()` labels a path from the initial
state of the built automaton and is not a sequence of actions of the type. -/
theorem FromLocal_language_mismatch :
    hasUnbound [] shadowed = false ∧
    ∀ render, ∃ a, FromLocal render shadowed = some a ∧
      isPath a.Transitions a.Init ["A ? b()", "B ? ()"] = true ∧
      ¬ Trace render [] shadowed ["A ? b()", "B ? ()"] := by
  refine ⟨rfl, fun render => ⟨⟨0, 3, 2, [⟨1, "B ? ()", 1⟩, ⟨0, "A ? a()", 1⟩,
    ⟨0, "A ? b()", 1⟩]⟩, rfl, by decide, ?_⟩⟩
  intro h
  have h1 := h.recur_inv (by simp)
  obtain ⟨m, k, hmem, hl, h2⟩ := h1.branch_inv
  simp only [List.mem_cons, Prod.mk.injEq, List.not_mem_nil, or_false] at hmem
  rcases hmem with ⟨rfl, rfl⟩ | ⟨rfl, rfl⟩
  · have hlab : recvLabel render ⟨"A"⟩ (msg "a" "") = "A ? a()" := rfl
    rw [hlab] at hl
    exact absurd hl (by decide)
  · obtain ⟨b, ρ1, hlook, h3⟩ := h2.var_inv (by simp)
    simp only [lookupEnv, if_true, Option.some.injEq, Prod.mk.injEq] at hlook
    obtain ⟨rfl, rfl⟩ := hlook
    obtain ⟨m, k, -, hl, -⟩ := h3.branch_inv
    simp only [recvLabel, Role.Name] at hl
    have := congrArg (fun s : String => s.toList.head?) hl
    simp at this


/-! ## Decoding the transitions -/

theorem parseLabel_no_match (parse : String → Option Local) (label : String)
    (hrecv : findSubmatch recv label.data = none)
    (hsend : findSubmatch send label.data = none) :
    parseLabel parse label = .error .ErrInvalidLabel := by
  simp [parseLabel, hrecv, hsend]

theorem parseLabel_error_kind (parse : String → Option Local) (label : String) (e : AutError)
    (h : parseLabel parse label = .error e) : e = .ErrInvalidLabel := by
  unfold parseLabel at h
  cases h1 : findSubmatch recv label.data with
  | some m => simp [h1] at h
  | none =>
    cases h2 : findSubmatch send label.data with
    | some m => simp [h1, h2] at h
    | none =>
      simp only [h1, h2, Except.error.injEq] at h
      exact h.symm

/-- The loop of `ToLocal` fails with the invalid-label error as soon as one
label of the sequence does not decode. -/
theorem scanTransitions_error (parse : String → Option Local) :
    ∀ (trs : List Transition) (tb : Tables) (tr : Transition), tr ∈ trs →
      parseLabel parse tr.Label = .error .ErrInvalidLabel →
      scanTransitions parse trs tb = .error .ErrInvalidLabel
  | [], _, _, hmem, _ => by simp at hmem
  | t :: rest, tb, tr, hmem, herr => by
    unfold scanTransitions
    cases hp : parseLabel parse t.Label with
    | error e => simp [parseLabel_error_kind parse _ e hp]
    | ok x =>
      obtain ⟨r, d, m⟩ := x
      have hmem1 : tr ∈ rest := by
        rcases List.mem_cons.1 hmem with h | h
        · subst h
          rw [hp] at herr
          cases herr
        · exact h
      simpa using scanTransitions_error parse rest _ tr hmem1 herr

/-- The loop of `ToLocal` succeeds when every label decodes. -/
theorem scanTransitions_ok (parse : String → Option Local) :
    ∀ (trs : List Transition) (tb : Tables),
      (∀ tr ∈ trs, ∃ x, parseLabel parse tr.Label = .ok x) →
      ∃ tb1, scanTransitions parse trs tb = .ok tb1
  | [], tb, _ => ⟨tb, rfl⟩
  | t :: rest, tb, h => by
    obtain ⟨⟨r, d, m⟩, hx⟩ := h t (by simp)
    obtain ⟨tb1, h1⟩ := scanTransitions_ok parse rest (tb.add t.From r d m t.To)
      (fun tr htr => h tr (by simp [htr]))
    exact ⟨tb1, by simp [scanTransitions, hx, h1]⟩

/-- The loop of `ToLocal` over a concatenation. -/
theorem scanTransitions_append (parse : String → Option Local) :
    ∀ (pre post : List Transition) (tb : Tables),
      scanTransitions parse (pre ++ post) tb =
        match scanTransitions parse pre tb with
        | .error e => .error e
        | .ok tb1 => scanTransitions parse post tb1
  | [], post, tb => by simp [scanTransitions]
  | t :: rest, post, tb => by
    simp only [List.cons_append, scanTransitions]
    cases hp : parseLabel parse t.Label with
    | error e => simp
    | ok x =>
      obtain ⟨r, d, m⟩ := x
      simpa using scanTransitions_append parse rest post _


/-! ## Termination of the reconstructor -/

theorem pending_mono (S : Finset State) (inEdges : State → Nat)
    {labels labels1 : State → Option String}
    (h : ∀ s, labels s ≠ none → labels1 s ≠ none) :
    (pending S inEdges labels1).card ≤ (pending S inEdges labels).card := by
  apply Finset.card_le_card
  intro s hs
  simp only [pending, Finset.mem_filter] at hs ⊢
  refine ⟨hs.1, hs.2.1, ?_⟩
  by_contra hne
  exact h s hne hs.2.2

theorem pending_bind_lt (S : Finset State) (inEdges : State → Nat)
    (labels : State → Option String) (st : State) (name : String)
    (hS : st ∈ S) (hin : 0 < inEdges st) (hnone : labels st = none) :
    (pending S inEdges (fun s => if s = st then some name else labels s)).card <
      (pending S inEdges labels).card := by
  apply Finset.card_lt_card
  rw [Finset.ssubset_iff_of_subset]
  · refine ⟨st, ?_, ?_⟩
    · simp [pending, hS, hin, hnone]
    · simp [pending]
  · intro s hs
    simp only [pending, Finset.mem_filter] at hs ⊢
    refine ⟨hs.1, hs.2.1, ?_⟩
    by_cases hst : s = st
    · simp [hst] at hs
    · simpa [hst] using hs.2.2

/-- The edge loop returns when the recursive call returns on every target. -/
theorem rebuildEdges_total
    (rebuild : State → (State → Option String) → Option (Local × (State → Option String)))
    (good : (State → Option String) → Prop) (admissible : State → Prop)
    (hgood : ∀ L L1, good L → (∀ s, L s ≠ none → L1 s ≠ none) → good L1)
    (hreb : ∀ st L, admissible st → good L →
      ∃ l L1, rebuild st L = some (l, L1) ∧ ∀ s, L s ≠ none → L1 s ≠ none) :
    ∀ (edges : List Edge) (L : State → Option String) (m : List Alt),
      (∀ e ∈ edges, admissible e.next) → good L →
      ∃ m1 L1, rebuildEdges rebuild edges L m = some (m1, L1) ∧ ∀ s, L s ≠ none → L1 s ≠ none
  | [], L, m, _, _ => ⟨m, L, rfl, fun _ h => h⟩
  | e :: rest, L, m, hadm, hL => by
    obtain ⟨l, L1, h1, hle1⟩ := hreb e.next L (hadm e (by simp)) hL
    obtain ⟨m2, L2, h2, hle2⟩ := rebuildEdges_total rebuild good admissible hgood hreb rest L1 (setAlt m e.mesg l)
      (fun e1 he1 => hadm e1 (by simp [he1])) (hgood L L1 hL hle1)
    exact ⟨m2, L2, by simp [rebuildEdges, h1, h2], fun s hs => hle2 s (hle1 s hs)⟩

/-- On consistent tables, `stateToType` returns at a state with an in-edge
(or without bundle) as soon as the depth bound exceeds the number of pending
states. -/
theorem stateToType_total (trans : State → Option transition) (inEdges : State → Nat)
    (S : Finset State)
    (hcons : ∀ s tr, trans s = some tr → ∀ e ∈ tr.edges, 0 < inEdges e.next)
    (hS : ∀ s, trans s ≠ none → s ∈ S) :
    ∀ (fuel : Nat) (st : State) (labels : State → Option String),
      (0 < inEdges st ∨ trans st = none) → (pending S inEdges labels).card < fuel →
      ∃ l labels1, stateToType trans inEdges fuel st labels = some (l, labels1) ∧
        ∀ s, labels s ≠ none → labels1 s ≠ none
  | 0, _, _, _, h => absurd h (Nat.not_lt_zero _)
  | fuel + 1, st, labels, hst, hfuel => by
    unfold stateToType
    cases htr : trans st with
    | none => exact ⟨.End, labels, rfl, fun _ h => h⟩
    | some tr =>
      have hin : 0 < inEdges st := by
        rcases hst with h | h
        · exact h
        · rw [htr] at h
          cases h
      simp only [gt_iff_lt, hin, if_true]
      cases hlab : labels st with
      | some name => exact ⟨.TypeVar name, labels, rfl, fun _ h => h⟩
      | none =>
        have hlt := pending_bind_lt S inEdges labels st ("L" ++ toString st)
          (hS st (by simp [htr])) hin hlab
        have hle : ∀ s, labels s ≠ none →
            (fun s => if s = st then some ("L" ++ toString st) else labels s) s ≠ none := by
          intro s hs
          by_cases h : s = st
          · simp [h]
          · simpa [h] using hs
        obtain ⟨m, labels2, h2, hle2⟩ :=
          rebuildEdges_total (stateToType trans inEdges fuel)
            (fun L => (pending S inEdges L).card < fuel) (fun s => 0 < inEdges s)
            (fun L L1 hL hLL1 => lt_of_le_of_lt (pending_mono S inEdges hLL1) hL)
            (fun s L hs hL =>
              stateToType_total trans inEdges S hcons hS fuel s L (Or.inl hs) hL)
            tr.edges (fun s => if s = st then some ("L" ++ toString st) else labels s) []
            (hcons st tr htr) (by omega)
        exact ⟨.Recur ((labels2 st).getD "") (mkNode tr.dir tr.role m), labels2, by simp [h2],
          fun s hs => hle2 s (hle s hs)⟩

/-- On consistent tables, `stateToType` returns at every state as soon as the
depth bound exceeds the number of pending states by two. -/
theorem stateToType_total_root (trans : State → Option transition) (inEdges : State → Nat)
    (S : Finset State)
    (hcons : ∀ s tr, trans s = some tr → ∀ e ∈ tr.edges, 0 < inEdges e.next)
    (hS : ∀ s, trans s ≠ none → s ∈ S) (fuel : Nat) (st : State)
    (labels : State → Option String) (hfuel : (pending S inEdges labels).card + 1 < fuel) :
    ∃ l labels1, stateToType trans inEdges fuel st labels = some (l, labels1) := by
  by_cases hst : 0 < inEdges st ∨ trans st = none
  · obtain ⟨l, labels1, h, -⟩ :=
      stateToType_total trans inEdges S hcons hS fuel st labels hst (by omega)
    exact ⟨l, labels1, h⟩
  · obtain ⟨f, rfl⟩ : ∃ f, fuel = f + 1 := ⟨fuel - 1, by omega⟩
    have hin : ¬ 0 < inEdges st := fun h => hst (Or.inl h)
    cases htr : trans st with
    | none => exact absurd (Or.inr htr) hst
    | some tr =>
      obtain ⟨m, labels2, h2, -⟩ :=
        rebuildEdges_total (stateToType trans inEdges f)
          (fun L => (pending S inEdges L).card < f) (fun s => 0 < inEdges s)
          (fun L L1 hL hLL1 => lt_of_le_of_lt (pending_mono S inEdges hLL1) hL)
          (fun s L hs hL =>
            stateToType_total trans inEdges S hcons hS f s L (Or.inl hs) hL)
          tr.edges labels [] (hcons st tr htr) (by omega)
      exact ⟨mkNode tr.dir tr.role m, labels2, by simp [stateToType, htr, hin, h2]⟩


/-! ## Invariants of the loop of `ToLocal` -/

theorem Tables.add_consistent (tb : Tables) (frm : State) (r : Role) (d : Dir)
    (m : Message Local) (next : State) (h : tb.Consistent) :
    (tb.add frm r d m next).Consistent := by
  intro s tr hs e he
  have hmono : ∀ x, 0 < tb.inEdges x → 0 < (tb.add frm r d m next).inEdges x := by
    intro x hx
    simp only [Tables.add]
    split <;> omega
  by_cases hsf : s = frm
  · subst hsf
    simp only [Tables.add, if_true, Option.some.injEq] at hs
    subst hs
    simp only [transition.addEdge, List.mem_append, List.mem_singleton] at he
    rcases he with he | rfl
    · cases hold : tb.trans s with
      | none => simp [hold] at he
      | some tr0 =>
        simp only [hold] at he
        exact hmono _ (h s tr0 hold e he)
    · simp [Tables.add]
  · simp only [Tables.add, hsf, if_false] at hs
    exact hmono _ (h s tr hs e he)

theorem scanTransitions_consistent (parse : String → Option Local) :
    ∀ (trs : List Transition) (tb tb1 : Tables), tb.Consistent →
      scanTransitions parse trs tb = .ok tb1 → tb1.Consistent
  | [], tb, tb1, h, hs => by
    simp only [scanTransitions, Except.ok.injEq] at hs
    exact hs ▸ h
  | t :: rest, tb, tb1, h, hs => by
    unfold scanTransitions at hs
    cases hp : parseLabel parse t.Label with
    | error e => simp [hp] at hs
    | ok x =>
      obtain ⟨r, d, m⟩ := x
      simp only [hp] at hs
      exact scanTransitions_consistent parse rest _ tb1 (tb.add_consistent _ r d m _ h) hs

/-- A state has a bundle after the loop only if it had one before or is the
source of a scanned transition. -/
theorem scanTransitions_sources (parse : String → Option Local) :
    ∀ (trs : List Transition) (tb tb1 : Tables),
      scanTransitions parse trs tb = .ok tb1 →
      ∀ s, tb1.trans s ≠ none → tb.trans s ≠ none ∨ s ∈ trs.map Transition.From
  | [], tb, tb1, hs, s, h => by
    simp only [scanTransitions, Except.ok.injEq] at hs
    exact Or.inl (hs ▸ h)
  | t :: rest, tb, tb1, hs, s, h => by
    unfold scanTransitions at hs
    cases hp : parseLabel parse t.Label with
    | error e => simp [hp] at hs
    | ok x =>
      obtain ⟨r, d, m⟩ := x
      simp only [hp] at hs
      rcases scanTransitions_sources parse rest _ tb1 hs s h with h1 | h1
      · by_cases hsf : s = t.From
        · exact Or.inr (by simp [hsf])
        · simp only [Tables.add, hsf, if_false] at h1
          exact Or.inl h1
      · exact Or.inr (by simp only [List.map_cons, List.mem_cons]; exact Or.inr h1)

/-- The loop never changes the role and direction of an existing bundle. -/
theorem scanTransitions_keeps (parse : String → Option Local) :
    ∀ (trs : List Transition) (tb tb1 : Tables) (s : State) (b : transition),
      tb.trans s = some b → scanTransitions parse trs tb = .ok tb1 →
      ∃ b1, tb1.trans s = some b1 ∧ b1.role = b.role ∧ b1.dir = b.dir
  | [], tb, tb1, s, b, hb, hs => by
    simp only [scanTransitions, Except.ok.injEq] at hs
    exact ⟨b, hs ▸ hb, rfl, rfl⟩
  | t :: rest, tb, tb1, s, b, hb, hs => by
    unfold scanTransitions at hs
    cases hp : parseLabel parse t.Label with
    | error e => simp [hp] at hs
    | ok x =>
      obtain ⟨r, d, m⟩ := x
      simp only [hp] at hs
      by_cases hsf : s = t.From
      · have hadd : (tb.add t.From r d m t.To).trans s = some (b.addEdge m t.To) := by
          subst hsf
          simp [Tables.add, hb]
        obtain ⟨b1, h1, h2, h3⟩ := scanTransitions_keeps parse rest _ tb1 s _ hadd hs
        exact ⟨b1, h1, by simpa [transition.addEdge] using h2,
          by simpa [transition.addEdge] using h3⟩
      · have hadd : (tb.add t.From r d m t.To).trans s = some b := by
          simp [Tables.add, hsf, hb]
        exact scanTransitions_keeps parse rest _ tb1 s b hadd hs

/-- First write wins: the bundle of a state carries the role and direction
decoded from the first transition that leaves it. -/
theorem scanTransitions_first (parse : String → Option Local) (pre post : List Transition)
    (tr : Transition) (tb1 : Tables) (r : Role) (d : Dir) (m : Message Local)
    (hfirst : ∀ t ∈ pre, t.From ≠ tr.From)
    (hlab : parseLabel parse tr.Label = .ok (r, d, m))
    (hs : scanTransitions parse (pre ++ tr :: post) Tables.empty = .ok tb1) :
    ∃ b, tb1.trans tr.From = some b ∧ b.role = r ∧ b.dir = d := by
  rw [scanTransitions_append] at hs
  cases hpre : scanTransitions parse pre Tables.empty with
  | error e => simp [hpre] at hs
  | ok tb0 =>
    simp only [hpre] at hs
    have hnone : tb0.trans tr.From = none := by
      by_contra hne
      rcases scanTransitions_sources parse pre _ tb0 hpre tr.From hne with h | h
      · exact h rfl
      · obtain ⟨t, ht, hEq⟩ := List.mem_map.1 h
        exact hfirst t ht hEq
    unfold scanTransitions at hs
    simp only [hlab] at hs
    have hadd : (tb0.add tr.From r d m tr.To).trans tr.From =
        some ((⟨r, d, []⟩ : transition).addEdge m tr.To) := by
      simp [Tables.add, hnone]
    obtain ⟨b1, h1, h2, h3⟩ := scanTransitions_keeps parse post _ tb1 tr.From _ hadd hs
    exact ⟨b1, h1, by simpa [transition.addEdge] using h2,
      by simpa [transition.addEdge] using h3⟩

/-- The node `stateToType` builds for a state with a bundle, when it does not
return a `TypeVar`, carries the role and direction of the bundle. -/
theorem stateToType_head (trans : State → Option transition) (inEdges : State → Nat)
    (fuel : Nat) (st : State) (labels labels1 : State → Option String) (l : Local)
    (b : transition) (hb : trans st = some b) (hfresh : labels st = none ∨ inEdges st = 0)
    (h : stateToType trans inEdges fuel st labels = some (l, labels1)) :
    nodeHead l = some (b.role, b.dir) := by
  cases fuel with
  | zero => simp [stateToType] at h
  | succ f =>
    unfold stateToType at h
    simp only [hb] at h
    have hnode : ∀ m x, nodeHead (mkNode b.dir b.role m) = some (b.role, b.dir) ∧
        nodeHead (.Recur x (mkNode b.dir b.role m)) = some (b.role, b.dir) := by
      intro m x
      cases hd : b.dir <;> simp [mkNode, nodeHead]
    by_cases hin : 0 < inEdges st
    · have hlab : labels st = none := by
        rcases hfresh with h1 | h1
        · exact h1
        · omega
      simp only [gt_iff_lt, hin, if_true, hlab] at h
      cases hre : rebuildEdges (stateToType trans inEdges f) b.edges
          (fun s => if s = st then some ("L" ++ toString st) else labels s) [] with
      | none => simp [hre] at h
      | some p =>
        obtain ⟨m, labels2⟩ := p
        simp only [hre, Option.some.injEq, Prod.mk.injEq] at h
        rw [← h.1]
        exact (hnode m _).2
    · simp only [gt_iff_lt, hin, if_false] at h
      cases hre : rebuildEdges (stateToType trans inEdges f) b.edges labels [] with
      | none => simp [hre] at h
      | some p =>
        obtain ⟨m, labels2⟩ := p
        simp only [hre, Option.some.injEq, Prod.mk.injEq] at h
        rw [← h.1]
        exact (hnode m "").1

/-- The function `ToLocal` returns a type for every automaton whose labels
all decode: the depth bound of the model is never reached. -/
theorem ToLocal_total (parse : String → Option Local) (a : Aut)
    (hdec : ∀ tr ∈ a.Transitions, ∃ x, parseLabel parse tr.Label = .ok x) :
    ∃ l, ToLocal parse a = some (.ok l) := by
  obtain ⟨tb, htb⟩ := scanTransitions_ok parse a.Transitions Tables.empty hdec
  have hcons : tb.Consistent :=
    scanTransitions_consistent parse _ _ tb (by intro s tr h; simp [Tables.empty] at h) htb
  have hS : ∀ s, tb.trans s ≠ none → s ∈ (a.Transitions.map Transition.From).toFinset := by
    intro s hs
    rcases scanTransitions_sources parse _ _ tb htb s hs with h | h
    · simp [Tables.empty] at h
    · simpa using h
  have hcard : (pending (a.Transitions.map Transition.From).toFinset tb.inEdges
      (fun _ => none)).card ≤ a.Transitions.length := by
    calc (pending (a.Transitions.map Transition.From).toFinset tb.inEdges (fun _ => none)).card
        ≤ (a.Transitions.map Transition.From).toFinset.card :=
          Finset.card_le_card (Finset.filter_subset _ _)
      _ ≤ (a.Transitions.map Transition.From).length := List.toFinset_card_le _
      _ = a.Transitions.length := by simp
  obtain ⟨l, labels1, h⟩ := stateToType_total_root tb.trans tb.inEdges _ hcons hS
    (a.Transitions.length + 2) a.Init (fun _ => none) (by omega)
  exact ⟨l, by simp [ToLocal, htb, h]⟩


/-! ## The round trips asserted by the tests -/

/-- The model reproduces the four tests of `aut_test.go`: with a parser that
reads the payload text `B&{?L(T).end}` back and reads no type from the base
type names, the round trip returns the types of `TestBranch`, `TestRecur`
and `TestEnd` unchanged and the simplified type for `TestRecurSimplified`. -/
theorem round_trip_test_inputs (render : Local → String) (parse : String → Option Local)
    (hr : render nestedB = "B&{?L(T).end}") (hp : parse "B&{?L(T).end}" = some nestedB)
    (h0 : parse "" = none) (h1 : parse "int" = none) :
    (FromLocal render testBranch).bind (ToLocal parse) = some (.ok testBranch) ∧
    (FromLocal render testRecur).bind (ToLocal parse) = some (.ok testRecur) ∧
    (FromLocal render .End).bind (ToLocal parse) = some (.ok .End) ∧
    (FromLocal render testRecurSimplified).bind (ToLocal parse) = some (.ok simplified) := by
  have e1 : FromLocal render testBranch = some ⟨0, 3, 4, [⟨0, "A ? l()", 1⟩,
      ⟨0, "A ? (int)", 2⟩, ⟨0, "A ? l2(" ++ render nestedB ++ ")", 3⟩]⟩ := rfl
  have e2 : FromLocal render testRecur = some ⟨0, 4, 3, [⟨1, "A ? l()", 1⟩,
      ⟨1, "A ? (int)", 0⟩, ⟨1, "A ? l2(" ++ render nestedB ++ ")", 4⟩, ⟨0, "A ? ()", 1⟩]⟩ := rfl
  have e3 : FromLocal render testRecurSimplified = some ⟨0, 3, 2, [⟨0, "A ? l()", 0⟩,
      ⟨0, "A ? (int)", 0⟩, ⟨0, "A ? l2(" ++ render nestedB ++ ")", 3⟩]⟩ := rfl
  have t1 : ToLocal parse ⟨0, 3, 4, [⟨0, "A ? l()", 1⟩, ⟨0, "A ? (int)", 2⟩,
      ⟨0, "A ? l2(B&{?L(T).end})", 3⟩]⟩ = some (.ok (.Branch ⟨"A"⟩
        [(⟨"l", payloadOf parse ""⟩, .End), (⟨"", payloadOf parse "int"⟩, .End),
         (⟨"l2", payloadOf parse "B&{?L(T).end}"⟩, .End)])) := rfl
  have t2 : ToLocal parse ⟨0, 4, 3, [⟨1, "A ? l()", 1⟩, ⟨1, "A ? (int)", 0⟩,
      ⟨1, "A ? l2(B&{?L(T).end})", 4⟩, ⟨0, "A ? ()", 1⟩]⟩ = some (.ok
        (.Recur "L0" (.Branch ⟨"A"⟩ [(⟨"", payloadOf parse ""⟩,
          .Recur "L1" (.Branch ⟨"A"⟩ [(⟨"l", payloadOf parse ""⟩, .TypeVar "L1"),
            (⟨"", payloadOf parse "int"⟩, .TypeVar "L0"),
            (⟨"l2", payloadOf parse "B&{?L(T).end}"⟩, .End)]))]))) := by
    with_unfolding_all rfl
  have t3 : ToLocal parse ⟨0, 3, 2, [⟨0, "A ? l()", 0⟩, ⟨0, "A ? (int)", 0⟩,
      ⟨0, "A ? l2(B&{?L(T).end})", 3⟩]⟩ = some (.ok (.Recur "L0" (.Branch ⟨"A"⟩
        [(⟨"l", payloadOf parse ""⟩, .TypeVar "L0"), (⟨"", payloadOf parse "int"⟩, .TypeVar "L0"),
         (⟨"l2", payloadOf parse "B&{?L(T).end}"⟩, .End)]))) := by
    with_unfolding_all rfl
  have p0 : payloadOf parse "" = .base "" := by simp [payloadOf, h0]
  have p1 : payloadOf parse "int" = .base "int" := by simp [payloadOf, h1]
  have p2 : payloadOf parse "B&{?L(T).end}" = .loc nestedB := by simp [payloadOf, hp]
  have l2 : "A ? l2(" ++ "B&{?L(T).end}" ++ ")" = "A ? l2(B&{?L(T).end})" := by decide
  refine ⟨?_, ?_, rfl, ?_⟩
  · rw [e1, hr, l2, Option.some_bind, t1, p0, p1, p2]
    rfl
  · rw [e2, hr, l2, Option.some_bind, t2, p0, p1, p2]
    rfl
  · rw [e3, hr, l2, Option.some_bind, t3, p0, p1, p2]
    rfl

/-! ## Claims on the label codec and the reconstructor -/

/-- C8: when some transition of the automaton, anywhere in the sequence,
carries a label that matches neither `recv` nor `send`, `ToLocal` returns the
invalid-label error and no type. -/
theorem ToLocal_invalid_label (parse : String → Option Local) (a : Aut) (tr : Transition)
    (hmem : tr ∈ a.Transitions)
    (hrecv : findSubmatch recv tr.Label.data = none)
    (hsend : findSubmatch send tr.Label.data = none) :
    ToLocal parse a = some (.error .ErrInvalidLabel) := by
  have herr := scanTransitions_error parse a.Transitions Tables.empty tr hmem
    (parseLabel_no_match parse tr.Label hrecv hsend)
  simp [ToLocal, herr]

/-- The theorem `ToLocal_invalid_label` at an automaton whose last transition,
not connected to the initial state, is labelled `garbage`. -/
theorem ToLocal_invalid_label_witness :
    findSubmatch recv "garbage".data = none ∧ findSubmatch send "garbage".data = none ∧
    ToLocal (fun _ => none) garbageLater = some (.error .ErrInvalidLabel) :=
  ⟨by decide, by decide,
    ToLocal_invalid_label (fun _ => none) garbageLater ⟨7, "garbage", 8⟩
      (by simp [garbageLater]) (by decide) (by decide)⟩

/-- C9: the label the builder emits for a send to `R` of the message `m`
whose payload renders as the receive type `A?l(T).end` is decoded by
`parseLabel` as a receive from `A` of the message `l` with payload text
`T).end`; a send label without such a payload is decoded as a send. -/
theorem parseLabel_send_decoded_as_recv :
    (∀ render : Local → String, render nestedRecv = "A?l(T).end" →
      sendLabel render ⟨"R"⟩ ⟨"m", .loc nestedRecv⟩ = "R ! m(A?l(T).end)") ∧
    (∀ parse, parseLabel parse "R ! m(A?l(T).end)" =
      .ok (⟨"A"⟩, .Recv, ⟨"l", payloadOf parse "T).end"⟩)) ∧
    (∀ parse, parseLabel parse "R ! m(int)" = .ok (⟨"R"⟩, .Send, ⟨"m", payloadOf parse "int"⟩)) := by
  refine ⟨?_, fun _ => rfl, fun _ => rfl⟩
  intro render h
  simp only [sendLabel, Message.String, Payload.String, h, Role.Name]
  decide

/-- C7: for the automaton `0 -a-> 1, 0 -b-> 1, 1 -c-> 2` the type `ToLocal`
returns is `A&{?a().*L1.A?c().end, ?b().L1}`, in which the `TypeVar` of
alternative `b` lies outside the `Recur` of alternative `a`. -/
theorem ToLocal_shared_target_unbound :
    (∀ parse, ToLocal parse sharedTarget =
      some (.ok (.Branch ⟨"A"⟩
        [(⟨"a", payloadOf parse ""⟩,
            .Recur "L1" (.Branch ⟨"A"⟩ [(⟨"c", payloadOf parse ""⟩, .End)])),
         (⟨"b", payloadOf parse ""⟩, .TypeVar "L1")]))) ∧
    (∀ p : Payload Local, hasUnbound [] (.Branch ⟨"A"⟩
        [(⟨"a", p⟩, .Recur "L1" (.Branch ⟨"A"⟩ [(⟨"c", p⟩, .End)])),
         (⟨"b", p⟩, .TypeVar "L1")]) = true) :=
  ⟨fun _ => by with_unfolding_all rfl, fun _ => rfl⟩

/-- C10 (counterexample): in the automaton `0 -"A ? a()"-> 1, 0 -"B ! b()"-> 2`
the last transition leaving state 0 decodes to a send to `B`, and `ToLocal`
builds for state 0 a `Branch` from `A`. -/
theorem ToLocal_last_write_counterexample :
    (∀ parse, parseLabel parse "A ? a()" = .ok (⟨"A"⟩, .Recv, ⟨"a", payloadOf parse ""⟩)) ∧
    (∀ parse, parseLabel parse "B ! b()" = .ok (⟨"B"⟩, .Send, ⟨"b", payloadOf parse ""⟩)) ∧
    (∀ parse, ToLocal parse mixedBundle =
      some (.ok (.Branch ⟨"A"⟩
        [(⟨"a", payloadOf parse ""⟩, .End), (⟨"b", payloadOf parse ""⟩, .End)]))) :=
  ⟨fun _ => rfl, fun _ => rfl, fun _ => rfl⟩

/-- C10 (amended): for every automaton whose labels all decode, `ToLocal`
raises no error, and the node built for a state carries the role and the
direction decoded from the first transition leaving that state in the
transition sequence; later transitions do not overwrite them. -/
theorem ToLocal_first_write_wins (parse : String → Option Local) (a : Aut)
    (pre post : List Transition) (tr : Transition) (r : Role) (d : Dir) (m : Message Local)
    (hsplit : a.Transitions = pre ++ tr :: post)
    (hfirst : ∀ t ∈ pre, t.From ≠ tr.From)
    (hdec : ∀ t ∈ a.Transitions, ∃ x, parseLabel parse t.Label = .ok x)
    (hlab : parseLabel parse tr.Label = .ok (r, d, m)) :
    (∃ l, ToLocal parse a = some (.ok l)) ∧
    (∃ tb, scanTransitions parse a.Transitions Tables.empty = .ok tb ∧
      ∀ fuel labels labels1 l, (labels tr.From = none ∨ tb.inEdges tr.From = 0) →
        stateToType tb.trans tb.inEdges fuel tr.From labels = some (l, labels1) →
        nodeHead l = some (r, d)) ∧
    (a.Init = tr.From → ∀ l, ToLocal parse a = some (.ok l) → nodeHead l = some (r, d)) := by
  obtain ⟨tb, htb⟩ := scanTransitions_ok parse a.Transitions Tables.empty hdec
  obtain ⟨b, hb, hr, hd⟩ :=
    scanTransitions_first parse pre post tr tb r d m hfirst hlab (hsplit ▸ htb)
  have hhead : ∀ fuel labels labels1 l, (labels tr.From = none ∨ tb.inEdges tr.From = 0) →
      stateToType tb.trans tb.inEdges fuel tr.From labels = some (l, labels1) →
      nodeHead l = some (r, d) := by
    intro fuel labels labels1 l hfresh h
    have := stateToType_head tb.trans tb.inEdges fuel tr.From labels labels1 l b hb hfresh h
    rw [this, hr, hd]
  refine ⟨ToLocal_total parse a hdec, ⟨tb, htb, hhead⟩, ?_⟩
  intro hinit l hl
  unfold ToLocal at hl
  simp only [htb] at hl
  cases hst : stateToType tb.trans tb.inEdges (a.Transitions.length + 2) a.Init
      (fun _ => none) with
  | none => simp [hst] at hl
  | some p =>
    obtain ⟨l1, labels1⟩ := p
    simp only [hst, Option.some.injEq, Except.ok.injEq] at hl
    subst hl
    rw [hinit] at hst
    exact hhead _ _ labels1 l1 (Or.inl rfl) hst

/-- The theorem `ToLocal_first_write_wins` at the automaton
`0 -"A ? a()"-> 1, 0 -"B ! b()"-> 2`. -/
theorem ToLocal_first_write_wins_witness :
    ∃ l, ToLocal (fun _ => none) mixedBundle = some (.ok l) ∧
      nodeHead l = some (⟨"A"⟩, .Recv) := by
  have h := ToLocal_first_write_wins (fun _ => none) mixedBundle [] [⟨0, "B ! b()", 2⟩]
    ⟨0, "A ? a()", 1⟩ ⟨"A"⟩ .Recv ⟨"a", .base ""⟩ rfl (by simp)
    (by
      intro t ht
      simp only [mixedBundle, List.mem_cons, List.mem_singleton, List.not_mem_nil,
        or_false] at ht
      rcases ht with rfl | rfl
      · exact ⟨_, rfl⟩
      · exact ⟨_, rfl⟩)
    rfl
  obtain ⟨l, hl⟩ := h.1
  exact ⟨l, hl, h.2.2 rfl l hl⟩

/-- C1: for the closed type `*x.A&{?a().*x.B?().x, ?b().x}` with alternative
`a` visited first, `ToLocal(FromLocal(T))` is `A&{?a().*L1.B?().L1, ?b().L1}`:
it has an unbound variable, and once the unused binders are removed its root
is a `Branch` while the root of `T` is a `Recur`. -/
theorem round_trip_shadowed :
    hasUnbound [] shadowed = false ∧ (dropUnused shadowed).kind = .Recur ∧
    (∀ render parse, ∃ a, FromLocal render shadowed = some a ∧
      ToLocal parse a = some (.ok (.Branch ⟨"A"⟩
        [(⟨"a", payloadOf parse ""⟩,
            .Recur "L1" (.Branch ⟨"B"⟩ [(⟨"", payloadOf parse ""⟩, .TypeVar "L1")])),
         (⟨"b", payloadOf parse ""⟩, .TypeVar "L1")]))) ∧
    (∀ p : Payload Local, hasUnbound [] (.Branch ⟨"A"⟩
        [(⟨"a", p⟩, .Recur "L1" (.Branch ⟨"B"⟩ [(⟨"", p⟩, .TypeVar "L1")])),
         (⟨"b", p⟩, .TypeVar "L1")]) = true ∧
      (dropUnused (.Branch ⟨"A"⟩
        [(⟨"a", p⟩, .Recur "L1" (.Branch ⟨"B"⟩ [(⟨"", p⟩, .TypeVar "L1")])),
         (⟨"b", p⟩, .TypeVar "L1")])).kind = .Branch) :=
  ⟨rfl, by decide, fun _ _ => ⟨⟨0, 3, 2, [⟨1, "B ? ()", 1⟩, ⟨0, "A ? a()", 1⟩,
    ⟨0, "A ? b()", 1⟩]⟩, rfl, by with_unfolding_all rfl⟩, fun _ => ⟨rfl, rfl⟩⟩


/-! ## Claims on the entry point, terminal states and the error value -/

/-- C11: for the type `*x.A&{?().end, ?local(int).x}` of `TestToAut` the
builder `FromLocal`, and with it the entry point `ToAut`, returns the header
`des (0, 2, 2)` with the transitions `(0, "A ? ()", 1)` and
`(0, "A ? local(int)", 0)` when `()` is visited first, and
`(0, "A ? local(int)", 0)` and `(0, "A ? ()", 2)` otherwise; in neither order
is the header `des (0, 2, 3)`, and in neither order is there a transition
`(0, "A ? local(int)", 2)`, which are what `TestToAut` expects. -/
theorem TestToAut_output_mismatch :
    (∀ render, FromLocal render testToAut =
      some ⟨0, 2, 2, [⟨0, "A ? ()", 1⟩, ⟨0, "A ? local(int)", 0⟩]⟩) ∧
    (∀ render, FromLocal render testToAutSwapped =
      some ⟨0, 2, 2, [⟨0, "A ? local(int)", 0⟩, ⟨0, "A ? ()", 2⟩]⟩) ∧
    (∀ render, ToAut render testToAut = FromLocal render testToAut ∧
      ToAut render testToAutSwapped = FromLocal render testToAutSwapped) ∧
    (∀ render a, (FromLocal render testToAut = some a ∨
        FromLocal render testToAutSwapped = some a) →
      a.des = (0, 2, 2) ∧ a.des ≠ (0, 2, 3) ∧
      (⟨0, "A ? local(int)", 0⟩ : Transition) ∈ a.Transitions ∧
      (⟨0, "A ? local(int)", 2⟩ : Transition) ∉ a.Transitions) := by
  refine ⟨fun _ => rfl, fun _ => rfl, fun _ => ⟨rfl, rfl⟩, ?_⟩
  intro render a h
  have e1 : FromLocal render testToAut =
      some ⟨0, 2, 2, [⟨0, "A ? ()", 1⟩, ⟨0, "A ? local(int)", 0⟩]⟩ := rfl
  have e2 : FromLocal render testToAutSwapped =
      some ⟨0, 2, 2, [⟨0, "A ? local(int)", 0⟩, ⟨0, "A ? ()", 2⟩]⟩ := rfl
  rw [e1, e2, Option.some.injEq, Option.some.injEq] at h
  rcases h with h | h <;> subst h <;> exact ⟨by decide, by decide, by decide, by decide⟩

/-- A state that is the source of no transition has no bundle after the loop
of `ToLocal`. -/
theorem scanTransitions_no_source (parse : String → Option Local) (trs : List Transition)
    (tb : Tables) (h : scanTransitions parse trs Tables.empty = .ok tb) (st : State)
    (hst : ∀ tr ∈ trs, tr.From ≠ st) : tb.trans st = none := by
  by_contra hne
  rcases scanTransitions_sources parse trs _ tb h st hne with h1 | h1
  · exact h1 rfl
  · obtain ⟨t, ht, hEq⟩ := List.mem_map.1 h1
    exact hst t ht hEq

/-- C12: for every automaton whose labels all decode, `ToLocal` returns `End`
with no error when the initial state has no outgoing transition (so for the
automaton of `FromLocal(End)`), and `stateToType` rebuilds every state
without outgoing transition as `End`, whatever its in-degree and whatever the
bindings. -/
theorem ToLocal_terminal (parse : String → Option Local) (a : Aut)
    (hdec : ∀ tr ∈ a.Transitions, ∃ x, parseLabel parse tr.Label = .ok x) :
    ((∀ tr ∈ a.Transitions, tr.From ≠ a.Init) → ToLocal parse a = some (.ok .End)) ∧
    (∃ tb, scanTransitions parse a.Transitions Tables.empty = .ok tb ∧
      ∀ st, (∀ tr ∈ a.Transitions, tr.From ≠ st) → ∀ fuel labels,
        stateToType tb.trans tb.inEdges (fuel + 1) st labels = some (.End, labels)) ∧
    (∀ render, (FromLocal render .End).bind (ToLocal parse) = some (.ok .End)) := by
  obtain ⟨tb, htb⟩ := scanTransitions_ok parse a.Transitions Tables.empty hdec
  have hend : ∀ st, (∀ tr ∈ a.Transitions, tr.From ≠ st) → ∀ fuel labels,
      stateToType tb.trans tb.inEdges (fuel + 1) st labels = some (.End, labels) := by
    intro st hst fuel labels
    simp [stateToType, scanTransitions_no_source parse _ tb htb st hst]
  refine ⟨?_, ⟨tb, htb, hend⟩, fun _ => rfl⟩
  intro hinit
  simp [ToLocal, htb, hend a.Init hinit]

/-- The theorem `ToLocal_terminal` at an automaton whose initial state has
in-degree 2 and no outgoing transition. -/
theorem ToLocal_terminal_witness : ToLocal (fun _ => none) fanIn = some (.ok .End) :=
  (ToLocal_terminal (fun _ => none) fanIn (by
    intro t ht
    simp only [fanIn, List.mem_cons, List.mem_singleton, List.not_mem_nil, or_false] at ht
    rcases ht with rfl | rfl
    · exact ⟨_, rfl⟩
    · exact ⟨_, rfl⟩)).1 (by simp [fanIn])

/-- C13 (counterexample): for `T = *x.A?().*y.A&{?l().y, ?(int).x}` the round
trip returns `*L0.A?().*L1.A&{?l().L1, ?(int).L0}`, which no renaming of
`*L.A&{?l().L, ?(int).L}` equals: it has three alternatives, the simplified
form two. -/
theorem folding_example_counterexample :
    hasUnbound [] foldingInput = false ∧ numAlts simplifiedL = 2 ∧
    ∀ render parse, ∃ a r, FromLocal render foldingInput = some a ∧
      ToLocal parse a = some (.ok r) ∧ numAlts r = 3 ∧ ∀ f, rename f simplifiedL ≠ r := by
  refine ⟨rfl, rfl, fun render parse => ⟨⟨0, 3, 2, [⟨1, "A ? l()", 1⟩, ⟨1, "A ? (int)", 0⟩,
    ⟨0, "A ? ()", 1⟩]⟩, .Recur "L0" (.Branch ⟨"A"⟩ [(⟨"", payloadOf parse ""⟩,
      .Recur "L1" (.Branch ⟨"A"⟩ [(⟨"l", payloadOf parse ""⟩, .TypeVar "L1"),
        (⟨"", payloadOf parse "int"⟩, .TypeVar "L0")]))]), rfl, by with_unfolding_all rfl,
    rfl, ?_⟩⟩
  intro f h
  simp [rename, renameList, simplifiedL] at h

/-- C13 (amended): with a parser that reads no type from the payload texts,
the round trip of `T = *x.A?().*y.A&{?l().y, ?(int).x}` is `T` itself up to
renaming, `*L0.A?().*L1.A&{?l().L1, ?(int).L0}`; the simplified form
`*L.A&{?l().L, ?(int).L}` is, up to renaming, the round trip of the type
`*x.*y.A&{?l().y, ?(int).x}` whose two binders are directly nested. -/
theorem folding_example (render : Local → String) (parse : String → Option Local)
    (h0 : parse "" = none) (h1 : parse "int" = none) :
    (∃ a, FromLocal render foldingInput = some a ∧ a.NumStates = 2 ∧
      ToLocal parse a = some (.ok
        (rename (fun v => if v = "x" then "L0" else "L1") foldingInput))) ∧
    (∃ a, FromLocal render stackedInput = some a ∧ a.NumStates = 1 ∧
      ToLocal parse a = some (.ok (rename (fun _ => "L0") simplifiedL))) := by
  have p0 : payloadOf parse "" = .base "" := by simp [payloadOf, h0]
  have p1 : payloadOf parse "int" = .base "int" := by simp [payloadOf, h1]
  have t1 : ToLocal parse ⟨0, 3, 2, [⟨1, "A ? l()", 1⟩, ⟨1, "A ? (int)", 0⟩,
      ⟨0, "A ? ()", 1⟩]⟩ = some (.ok (.Recur "L0" (.Branch ⟨"A"⟩ [(⟨"", payloadOf parse ""⟩,
        .Recur "L1" (.Branch ⟨"A"⟩ [(⟨"l", payloadOf parse ""⟩, .TypeVar "L1"),
          (⟨"", payloadOf parse "int"⟩, .TypeVar "L0")]))]))) := by
    with_unfolding_all rfl
  have t2 : ToLocal parse ⟨0, 2, 1, [⟨0, "A ? l()", 0⟩, ⟨0, "A ? (int)", 0⟩]⟩ =
      some (.ok (.Recur "L0" (.Branch ⟨"A"⟩ [(⟨"l", payloadOf parse ""⟩, .TypeVar "L0"),
        (⟨"", payloadOf parse "int"⟩, .TypeVar "L0")]))) := by
    with_unfolding_all rfl
  refine ⟨⟨⟨0, 3, 2, [⟨1, "A ? l()", 1⟩, ⟨1, "A ? (int)", 0⟩, ⟨0, "A ? ()", 1⟩]⟩, rfl, rfl, ?_⟩,
    ⟨⟨0, 2, 1, [⟨0, "A ? l()", 0⟩, ⟨0, "A ? (int)", 0⟩]⟩, rfl, rfl, ?_⟩⟩
  · rw [t1, p0, p1]
    rfl
  · rw [t2, p0, p1]
    rfl


/-- The theorem `folding_example` with a parser that reads no type. -/
theorem folding_example_witness :
    ∃ a, FromLocal (fun _ => "") foldingInput = some a ∧
      ToLocal (fun _ => none) a = some (.ok
        (.Recur "L0" (.Branch ⟨"A"⟩ [(msg "" "",
          .Recur "L1" (.Branch ⟨"A"⟩ [(msg "l" "", .TypeVar "L1"),
            (msg "" "int", .TypeVar "L0")]))]))) := by
  obtain ⟨a, h1, -, h2⟩ := (folding_example (fun _ => "") (fun _ => none) rfl rfl).1
  exact ⟨a, h1, h2⟩

/-- The only error of the loop of `ToLocal` is the invalid-label error. -/
theorem scanTransitions_error_kind (parse : String → Option Local) :
    ∀ (trs : List Transition) (tb : Tables) (e : AutError),
      scanTransitions parse trs tb = .error e → e = .ErrInvalidLabel
  | [], tb, e, h => by simp [scanTransitions] at h
  | t :: rest, tb, e, h => by
    unfold scanTransitions at h
    cases hp : parseLabel parse t.Label with
    | error e1 =>
      simp only [hp, Except.error.injEq] at h
      subst h
      exact parseLabel_error_kind parse _ e1 hp
    | ok x =>
      obtain ⟨r, d, m⟩ := x
      simp only [hp] at h
      exact scanTransitions_error_kind parse rest _ e h

/-- C14 (counterexample): the automata with the bad labels `garbage` and
`rubbish` make `ToLocal` fail with the same error value, whose text
`fromAut: invalid transition label` contains neither label. -/
theorem ToLocal_error_text_counterexample :
    (∀ parse, ToLocal parse garbageLater = some (.error .ErrInvalidLabel)) ∧
    (∀ parse, ToLocal parse rubbishOnly = some (.error .ErrInvalidLabel)) ∧
    occursIn "garbage".data AutError.ErrInvalidLabel.Error.data = false ∧
    occursIn "rubbish".data AutError.ErrInvalidLabel.Error.data = false :=
  ⟨fun _ => rfl, fun _ => rfl, by decide, by decide⟩

/-- C14 (amended): whenever `ToLocal` fails, the error value returned to the
caller is the fixed value `ErrInvalidLabel`, with the text
`fromAut: invalid transition label`, the same for every offending label. -/
theorem ToLocal_error_value (parse : String → Option Local) (a : Aut) (e : AutError)
    (h : ToLocal parse a = some (.error e)) :
    e = .ErrInvalidLabel ∧ e.Error = "fromAut: invalid transition label" := by
  have he : e = .ErrInvalidLabel := by
    unfold ToLocal at h
    cases hs : scanTransitions parse a.Transitions Tables.empty with
    | error e1 =>
      simp only [hs, Option.some.injEq, Except.error.injEq] at h
      subst h
      exact scanTransitions_error_kind parse _ _ e1 hs
    | ok tb =>
      simp only [hs] at h
      cases hst : stateToType tb.trans tb.inEdges (a.Transitions.length + 2) a.Init
          (fun _ => none) with
      | none => simp [hst] at h
      | some p => simp [hst] at h
  subst he
  exact ⟨rfl, rfl⟩


/-- The theorem `ToLocal_error_value` at the automaton labelled `rubbish`. -/
theorem ToLocal_error_value_witness :
    ToLocal (fun _ => none) rubbishOnly = some (.error .ErrInvalidLabel) ∧
    AutError.ErrInvalidLabel.Error = "fromAut: invalid transition label" :=
  ⟨rfl, (ToLocal_error_value (fun _ => none) rubbishOnly .ErrInvalidLabel rfl).2⟩

/-! ## Claims on the scope of the builder and the bindings of the rebuild -/

/-- C15: for the closed type `*x.A&{?a().*x.B?().x, ?b().x}` with alternative
`a` visited first, the transition of alternative `b` targets state 1, the
state of the inner binder, while the innermost enclosing binder of its
variable was entered at state 0 (the target a lexically scoped builder
gives); and for `*y.*x.A&{?a().*x.y, ?b().x}` the edge of alternative `b`
ends at state 1, the state pre-allocated for alternative `a` and released by
its variable. -/
theorem toAut_back_edge_not_lexical :
    hasUnbound [] shadowed = false ∧
    (∀ render, FromLocal render shadowed =
      some ⟨0, 3, 2, [⟨1, "B ? ()", 1⟩, ⟨0, "A ? a()", 1⟩, ⟨0, "A ? b()", 1⟩]⟩) ∧
    (∀ render, FromLocalLexical render shadowed =
      some ⟨0, 3, 2, [⟨1, "B ? ()", 1⟩, ⟨0, "A ? a()", 1⟩, ⟨0, "A ? b()", 0⟩]⟩) ∧
    hasUnbound [] staleBinder = false ∧
    (∀ render, FromLocal render staleBinder =
      some ⟨0, 2, 1, [⟨0, "A ? a()", 0⟩, ⟨0, "A ? b()", 1⟩]⟩) ∧
    (∀ render, FromLocalLexical render staleBinder =
      some ⟨0, 2, 1, [⟨0, "A ? a()", 0⟩, ⟨0, "A ? b()", 0⟩]⟩) :=
  ⟨rfl, fun _ => rfl, fun _ => rfl, rfl, fun _ => rfl, fun _ => rfl⟩

/-- C17: in the automaton `0 -a-> 1, 0 -b-> 1, 1 -c-> 2` the rebuild of
state 1 in alternative `a` leaves its binding `L1` in the map `labels`, and
the rebuild of state 1 in the sibling alternative `b` finds it and returns
the bare `TypeVar` `L1`; with path-local bindings both alternatives would be
`*L1.A?c().end`. -/
theorem stateToType_bindings_shared :
    (∀ parse, ∃ tb, scanTransitions parse sharedTarget.Transitions Tables.empty = .ok tb ∧
      (stateToType tb.trans tb.inEdges 3 1 (fun _ => none)).map (fun p => (p.1, p.2 1)) =
        some (.Recur "L1" (.Branch ⟨"A"⟩ [(⟨"c", payloadOf parse ""⟩, .End)]), some "L1") ∧
      (∀ labels : State → Option String, labels 1 = some "L1" →
        (stateToType tb.trans tb.inEdges 3 1 labels).map (fun p => p.1) =
          some (.TypeVar "L1")) ∧
      (stateToType tb.trans tb.inEdges 5 0 (fun _ => none)).map (fun p => p.1) =
        some (.Branch ⟨"A"⟩
          [(⟨"a", payloadOf parse ""⟩,
              .Recur "L1" (.Branch ⟨"A"⟩ [(⟨"c", payloadOf parse ""⟩, .End)])),
           (⟨"b", payloadOf parse ""⟩, .TypeVar "L1")]) ∧
      stateToTypePathLocal tb.trans tb.inEdges 5 0 (fun _ => none) =
        some (.Branch ⟨"A"⟩
          [(⟨"a", payloadOf parse ""⟩,
              .Recur "L1" (.Branch ⟨"A"⟩ [(⟨"c", payloadOf parse ""⟩, .End)])),
           (⟨"b", payloadOf parse ""⟩,
              .Recur "L1" (.Branch ⟨"A"⟩ [(⟨"c", payloadOf parse ""⟩, .End)]))])) ∧
    sharedTarget.Transitions.length + 2 = 5 := by
  refine ⟨fun parse => ⟨_, rfl, by with_unfolding_all rfl, ?_, by with_unfolding_all rfl,
    by with_unfolding_all rfl⟩, rfl⟩
  intro labels h
  simp [stateToType, Tables.add, Tables.empty, h]


/-! ## Inversion of the rebuild -/

theorem rebuildEdges_cons
    (rebuild : State → (State → Option String) → Option (Local × (State → Option String)))
    (e : Edge) (rest : List Edge) (L : State → Option String) (m : List Alt)
    (x : List Alt × (State → Option String))
    (h : rebuildEdges rebuild (e :: rest) L m = some x) :
    ∃ l L1, rebuild e.next L = some (l, L1) ∧
      rebuildEdges rebuild rest L1 (setAlt m e.mesg l) = some x := by
  unfold rebuildEdges at h
  cases hr : rebuild e.next L with
  | none => simp [hr] at h
  | some p =>
    obtain ⟨l, L1⟩ := p
    simp only [hr] at h
    exact ⟨l, L1, rfl, h⟩

/-- The four ways `stateToType` returns: `End`, a `TypeVar`, a `Recur` around
a node, or a bare node. -/
theorem stateToType_cases (trans : State → Option transition) (inEdges : State → Nat)
    (fuel : Nat) (st : State) (L L1 : State → Option String) (l : Local)
    (h : stateToType trans inEdges (fuel + 1) st L = some (l, L1)) :
    (trans st = none ∧ l = .End ∧ L1 = L) ∨
    (∃ tr name, trans st = some tr ∧ 0 < inEdges st ∧ L st = some name ∧
      l = .TypeVar name ∧ L1 = L) ∨
    (∃ tr m, trans st = some tr ∧ 0 < inEdges st ∧ L st = none ∧
      rebuildEdges (stateToType trans inEdges fuel) tr.edges
        (fun s => if s = st then some ("L" ++ toString st) else L s) [] = some (m, L1) ∧
      l = .Recur ((L1 st).getD "") (mkNode tr.dir tr.role m)) ∨
    (∃ tr m, trans st = some tr ∧ inEdges st = 0 ∧
      rebuildEdges (stateToType trans inEdges fuel) tr.edges L [] = some (m, L1) ∧
      l = mkNode tr.dir tr.role m) := by
  unfold stateToType at h
  cases htr : trans st with
  | none =>
    simp only [htr, Option.some.injEq, Prod.mk.injEq] at h
    exact Or.inl ⟨rfl, h.1.symm, h.2.symm⟩
  | some tr =>
    simp only [htr] at h
    by_cases hin : 0 < inEdges st
    · simp only [gt_iff_lt, hin, if_true] at h
      cases hlab : L st with
      | some name =>
        simp only [hlab, Option.some.injEq, Prod.mk.injEq] at h
        exact Or.inr (Or.inl ⟨tr, name, rfl, hin, rfl, h.1.symm, h.2.symm⟩)
      | none =>
        simp only [hlab] at h
        cases hre : rebuildEdges (stateToType trans inEdges fuel) tr.edges
            (fun s => if s = st then some ("L" ++ toString st) else L s) [] with
        | none => simp [hre] at h
        | some p =>
          obtain ⟨m, L2⟩ := p
          simp only [hre, Option.some.injEq, Prod.mk.injEq] at h
          obtain ⟨h1, h2⟩ := h
          subst h2
          exact Or.inr (Or.inr (Or.inl ⟨tr, m, rfl, hin, rfl, hre, h1.symm⟩))
    · simp only [gt_iff_lt, hin, if_false] at h
      cases hre : rebuildEdges (stateToType trans inEdges fuel) tr.edges L [] with
      | none => simp [hre] at h
      | some p =>
        obtain ⟨m, L2⟩ := p
        simp only [hre, Option.some.injEq, Prod.mk.injEq] at h
        obtain ⟨h1, h2⟩ := h
        subst h2
        exact Or.inr (Or.inr (Or.inr ⟨tr, m, rfl, by omega, hre, h1.symm⟩))

/-- A relation between the bindings before and after each recursive call
holds between the bindings before and after the edge loop. -/
theorem rebuildEdges_rel
    (rebuild : State → (State → Option String) → Option (Local × (State → Option String)))
    (R : (State → Option String) → (State → Option String) → Prop)
    (hrefl : ∀ L, R L L) (htrans : ∀ L1 L2 L3, R L1 L2 → R L2 L3 → R L1 L3)
    (hreb : ∀ st L l L1, rebuild st L = some (l, L1) → R L L1) :
    ∀ (edges : List Edge) (L : State → Option String) (m m1 : List Alt)
      (L1 : State → Option String),
      rebuildEdges rebuild edges L m = some (m1, L1) → R L L1
  | [], L, m, m1, L1, h => by
    simp only [rebuildEdges, Option.some.injEq, Prod.mk.injEq] at h
    exact h.2 ▸ hrefl L
  | e :: rest, L, m, m1, L1, h => by
    obtain ⟨l, L2, h1, h2⟩ := rebuildEdges_cons rebuild e rest L m _ h
    exact htrans _ _ _ (hreb _ _ _ _ h1)
      (rebuildEdges_rel rebuild R hrefl htrans hreb rest L2 _ m1 L1 h2)

/-- The rebuild never removes or changes a binding, and every state it binds
has a bundle and an in-edge and gets its own name. -/
theorem stateToType_extends (trans : State → Option transition) (inEdges : State → Nat) :
    ∀ (fuel : Nat) (st : State) (L L1 : State → Option String) (l : Local),
      stateToType trans inEdges fuel st L = some (l, L1) →
      (∀ s n, L s = some n → L1 s = some n) ∧
      (∀ s, L s = none → L1 s ≠ none →
        trans s ≠ none ∧ 0 < inEdges s ∧ L1 s = some (stateName s))
  | 0, _, _, _, _, h => by simp [stateToType] at h
  | fuel + 1, st, L, L1, l, h => by
    have hloop : ∀ (edges : List Edge) (La Lb : State → Option String) (m m1 : List Alt),
        rebuildEdges (stateToType trans inEdges fuel) edges La m = some (m1, Lb) →
        (∀ s n, La s = some n → Lb s = some n) ∧
        (∀ s, La s = none → Lb s ≠ none →
          trans s ≠ none ∧ 0 < inEdges s ∧ Lb s = some (stateName s)) := by
      intro edges La Lb m m1 hre
      refine rebuildEdges_rel (stateToType trans inEdges fuel)
        (fun La Lb => (∀ s n, La s = some n → Lb s = some n) ∧
          (∀ s, La s = none → Lb s ≠ none →
            trans s ≠ none ∧ 0 < inEdges s ∧ Lb s = some (stateName s)))
        (fun La => ⟨fun _ _ h => h, fun s h1 h2 => absurd h1 h2⟩) ?_
        (fun s La l Lb hs => stateToType_extends trans inEdges fuel s La Lb l hs)
        edges La m m1 Lb hre
      intro La Lb Lc hab hbc
      refine ⟨fun s n hs => hbc.1 s n (hab.1 s n hs), ?_⟩
      intro s hs hc
      cases hb : Lb s with
      | none => exact hbc.2 s hb hc
      | some n =>
        obtain ⟨h1, h2, h3⟩ := hab.2 s hs (by simp [hb])
        exact ⟨h1, h2, by rw [hbc.1 s n hb, ← h3, hb]⟩
    rcases stateToType_cases trans inEdges fuel st L L1 l h with
      ⟨-, -, rfl⟩ | ⟨tr, name, -, -, -, -, rfl⟩ | ⟨tr, m, htr, hin, hlab, hre, -⟩ |
      ⟨tr, m, -, -, hre, -⟩
    · exact ⟨fun _ _ h => h, fun s h1 h2 => absurd h1 h2⟩
    · exact ⟨fun _ _ h => h, fun s h1 h2 => absurd h1 h2⟩
    · obtain ⟨hk, hn⟩ := hloop _ _ _ _ _ hre
      refine ⟨?_, ?_⟩
      · intro s n hs
        apply hk
        by_cases hst : s = st
        · rw [hst, hlab] at hs
          cases hs
        · simpa [hst] using hs
      · intro s hs hne
        by_cases hst : s = st
        · subst hst
          exact ⟨by simp [htr], hin, hk s _ (by simp [stateName])⟩
        · exact hn s (by simpa [hst] using hs) hne
    · exact hloop _ _ _ _ _ hre


/-! ## The depth bound does not change the result -/

theorem rebuildEdges_mono
    (f g : State → (State → Option String) → Option (Local × (State → Option String)))
    (hfg : ∀ st L r, f st L = some r → g st L = some r) :
    ∀ (edges : List Edge) (L : State → Option String) (m : List Alt)
      (x : List Alt × (State → Option String)),
      rebuildEdges f edges L m = some x → rebuildEdges g edges L m = some x
  | [], L, m, x, h => by simpa [rebuildEdges] using h
  | e :: rest, L, m, x, h => by
    obtain ⟨l, L1, h1, h2⟩ := rebuildEdges_cons f e rest L m x h
    simp only [rebuildEdges, hfg _ _ _ h1]
    exact rebuildEdges_mono f g hfg rest L1 _ x h2

/-- A result of `stateToType` under one depth bound is its result under
every larger bound. -/
theorem stateToType_mono (trans : State → Option transition) (inEdges : State → Nat) :
    ∀ (fuel : Nat) (st : State) (L : State → Option String)
      (r : Local × (State → Option String)),
      stateToType trans inEdges fuel st L = some r →
      stateToType trans inEdges (fuel + 1) st L = some r
  | 0, _, _, _, h => by simp [stateToType] at h
  | fuel + 1, st, L, r, h => by
    have ih := rebuildEdges_mono (stateToType trans inEdges fuel)
      (stateToType trans inEdges (fuel + 1)) (stateToType_mono trans inEdges fuel)
    obtain ⟨l, L1⟩ := r
    rcases stateToType_cases trans inEdges fuel st L L1 l h with
      ⟨htr, rfl, rfl⟩ | ⟨tr, name, htr, hin, hlab, rfl, rfl⟩ | ⟨tr, m, htr, hin, hlab, hre, rfl⟩ |
      ⟨tr, m, htr, hin, hre, rfl⟩
    · unfold stateToType
      simp only [htr]
    · unfold stateToType
      simp only [htr, gt_iff_lt, hin, if_true, hlab]
    · have := ih _ _ _ _ hre
      unfold stateToType
      simp only [htr, gt_iff_lt, hin, if_true, hlab, this]
    · have := ih _ _ _ _ hre
      unfold stateToType
      simp only [htr, gt_iff_lt, hin, lt_self_iff_false, if_false, this]

theorem stateToType_mono_le (trans : State → Option transition) (inEdges : State → Nat)
    (fuel fuel1 : Nat) (hle : fuel ≤ fuel1) (st : State) (L : State → Option String)
    (r : Local × (State → Option String))
    (h : stateToType trans inEdges fuel st L = some r) :
    stateToType trans inEdges fuel1 st L = some r := by
  induction hle with
  | refl => exact h
  | step _ ih => exact stateToType_mono trans inEdges _ st L r ih

/-- The map `inEdges` counts the transitions that target each state. -/
theorem scanTransitions_inEdges (parse : String → Option Local) :
    ∀ (trs : List Transition) (tb tb1 : Tables),
      scanTransitions parse trs tb = .ok tb1 →
      ∀ s, tb1.inEdges s = tb.inEdges s + (trs.filter fun tr => tr.To = s).length
  | [], tb, tb1, h, s => by
    simp only [scanTransitions, Except.ok.injEq] at h
    simp [h]
  | t :: rest, tb, tb1, h, s => by
    unfold scanTransitions at h
    cases hp : parseLabel parse t.Label with
    | error e => simp [hp] at h
    | ok x =>
      obtain ⟨r, d, m⟩ := x
      simp only [hp] at h
      rw [scanTransitions_inEdges parse rest _ tb1 h s]
      by_cases hs : t.To = s
      · subst hs
        simp [Tables.add, List.filter_cons]
        omega
      · have hs1 : ¬ s = t.To := fun h => hs h.symm
        simp [Tables.add, List.filter_cons, hs, hs1]


/-! ## Claims on the recursion of the rebuild -/

/-- C18: for every automaton whose labels all decode (cyclic or not, built by
the builder or not), the recursion of `stateToType` that `ToLocal` starts at
the initial state returns: a depth of the number of states with outgoing
transitions plus two is enough, every larger bound gives the same type, and
the states bound in `labels` during the run are states with outgoing
transitions, so there are at most as many of them. -/
theorem ToLocal_terminates (parse : String → Option Local) (a : Aut)
    (hdec : ∀ tr ∈ a.Transitions, ∃ x, parseLabel parse tr.Label = .ok x) :
    ∃ tb l labels1, scanTransitions parse a.Transitions Tables.empty = .ok tb ∧
      ToLocal parse a = some (.ok l) ∧
      (∀ fuel, (sourceStates a).length + 2 ≤ fuel →
        stateToType tb.trans tb.inEdges fuel a.Init (fun _ => none) = some (l, labels1)) ∧
      (∀ s, labels1 s ≠ none → s ∈ sourceStates a) ∧
      (∀ bound : List State, bound.Nodup → (∀ s ∈ bound, labels1 s ≠ none) →
        bound.length ≤ (sourceStates a).length) := by
  obtain ⟨tb, htb⟩ := scanTransitions_ok parse a.Transitions Tables.empty hdec
  have hcons : tb.Consistent :=
    scanTransitions_consistent parse _ _ tb (by intro s tr h; simp [Tables.empty] at h) htb
  have hsrc : ∀ s, tb.trans s ≠ none → s ∈ sourceStates a := by
    intro s hs
    rcases scanTransitions_sources parse _ _ tb htb s hs with h | h
    · simp [Tables.empty] at h
    · simpa [sourceStates] using h
  have hS : ∀ s, tb.trans s ≠ none → s ∈ (a.Transitions.map Transition.From).toFinset := by
    intro s hs
    simpa [sourceStates] using hsrc s hs
  have hcard : (pending (a.Transitions.map Transition.From).toFinset tb.inEdges
      (fun _ => none)).card ≤ (sourceStates a).length := by
    calc (pending (a.Transitions.map Transition.From).toFinset tb.inEdges (fun _ => none)).card
        ≤ (a.Transitions.map Transition.From).toFinset.card :=
          Finset.card_le_card (Finset.filter_subset _ _)
      _ = (sourceStates a).length := List.card_toFinset _
  obtain ⟨l, labels1, h⟩ := stateToType_total_root tb.trans tb.inEdges _ hcons hS
    ((sourceStates a).length + 2) a.Init (fun _ => none) (by omega)
  have hlen : (sourceStates a).length ≤ a.Transitions.length := by
    have := (List.dedup_sublist (a.Transitions.map Transition.From)).length_le
    simpa [sourceStates] using this
  have hall : ∀ fuel, (sourceStates a).length + 2 ≤ fuel →
      stateToType tb.trans tb.inEdges fuel a.Init (fun _ => none) = some (l, labels1) :=
    fun fuel hf => stateToType_mono_le tb.trans tb.inEdges _ fuel hf _ _ _ h
  have hbound : ∀ s, labels1 s ≠ none → s ∈ sourceStates a := by
    intro s hs
    exact hsrc s ((stateToType_extends tb.trans tb.inEdges _ _ _ _ _ h).2 s rfl hs).1
  refine ⟨tb, l, labels1, htb, ?_, hall, hbound, ?_⟩
  · simp [ToLocal, htb, hall (a.Transitions.length + 2) (by omega)]
  · intro bound hnd hb
    exact (List.subperm_of_subset hnd (fun s hs => hbound s (hb s hs))).length_le

/-- The theorem `ToLocal_terminates` at an automaton with a self-loop and a
cycle that the builder does not produce. -/
theorem ToLocal_terminates_witness :
    ∃ l, ToLocal (fun _ => none) loops = some (.ok l) := by
  obtain ⟨tb, l, labels1, -, h, -⟩ := ToLocal_terminates (fun _ => none) loops (by
    intro t ht
    simp only [loops, List.mem_cons, List.mem_singleton, List.not_mem_nil, or_false] at ht
    rcases ht with rfl | rfl | rfl
    · exact ⟨_, rfl⟩
    · exact ⟨_, rfl⟩
    · exact ⟨_, rfl⟩)
  exact ⟨l, h⟩


/-- The edge loop never removes or changes a binding, and every state it
binds has a bundle and an in-edge and gets its own name. -/
theorem rebuildEdges_extends (trans : State → Option transition) (inEdges : State → Nat)
    (fuel : Nat) (edges : List Edge) (L L1 : State → Option String) (m m1 : List Alt)
    (h : rebuildEdges (stateToType trans inEdges fuel) edges L m = some (m1, L1)) :
    (∀ s n, L s = some n → L1 s = some n) ∧
    (∀ s, L s = none → L1 s ≠ none →
      trans s ≠ none ∧ 0 < inEdges s ∧ L1 s = some (stateName s)) := by
  refine rebuildEdges_rel (stateToType trans inEdges fuel)
    (fun La Lb => (∀ s n, La s = some n → Lb s = some n) ∧
      (∀ s, La s = none → Lb s ≠ none →
        trans s ≠ none ∧ 0 < inEdges s ∧ Lb s = some (stateName s)))
    (fun La => ⟨fun _ _ h => h, fun s h1 h2 => absurd h1 h2⟩) ?_
    (fun s La l Lb hs => stateToType_extends trans inEdges fuel s La Lb l hs)
    edges L m m1 L1 h
  intro La Lb Lc hab hbc
  refine ⟨fun s n hs => hbc.1 s n (hab.1 s n hs), ?_⟩
  intro s hs hc
  cases hb : Lb s with
  | none => exact hbc.2 s hb hc
  | some n =>
    obtain ⟨h1, h2, h3⟩ := hab.2 s hs (by simp [hb])
    exact ⟨h1, h2, by rw [hbc.1 s n hb, ← h3, hb]⟩

/-- Every source of a scanned transition has a bundle after the loop of
`ToLocal`. -/
theorem scanTransitions_has_bundle (parse : String → Option Local) :
    ∀ (trs : List Transition) (tb tb1 : Tables) (s : State),
      scanTransitions parse trs tb = .ok tb1 →
      (tb.trans s ≠ none ∨ s ∈ trs.map Transition.From) → tb1.trans s ≠ none
  | [], tb, tb1, s, h, hs => by
    simp only [scanTransitions, Except.ok.injEq] at h
    subst h
    simpa using hs
  | t :: rest, tb, tb1, s, h, hs => by
    unfold scanTransitions at h
    cases hp : parseLabel parse t.Label with
    | error e => simp [hp] at h
    | ok x =>
      obtain ⟨r, d, m⟩ := x
      simp only [hp] at h
      apply scanTransitions_has_bundle parse rest _ tb1 s h
      by_cases hsf : s = t.From
      · exact Or.inl (by simp [Tables.add, hsf])
      · rcases hs with hs | hs
        · exact Or.inl (by simpa [Tables.add, hsf] using hs)
        · simp only [List.map_cons, List.mem_cons] at hs
          rcases hs with hs | hs
          · exact absurd hs hsf
          · exact Or.inr hs

/-- C16: for every automaton whose labels decode and every state `s` with
outgoing transitions, `stateToType` returns at `s`; a rebuild of `s` while it
is not bound returns `Recur("L<s>", node)` and binds `s` when the in-degree
of `s` is positive, and the bare node when it is 0, where the node is a
`Branch` for the direction receive and a `Select` for send; bindings are
never removed, and a rebuild of `s` while it is bound returns the `TypeVar`
of its name. So `ToLocal(FromLocal(A?().B?().end))` is `A?().*L1.B?().end`. -/
theorem stateToType_binder_rule (parse : String → Option Local) (a : Aut)
    (hdec : ∀ tr ∈ a.Transitions, ∃ x, parseLabel parse tr.Label = .ok x)
    (s : State) (hs : s ∈ sourceStates a) :
    ∃ tb b, scanTransitions parse a.Transitions Tables.empty = .ok tb ∧
      tb.trans s = some b ∧ tb.inEdges s = inDegree a s ∧
      (∀ L, ∃ l L1, stateToType tb.trans tb.inEdges ((sourceStates a).length + 2) s L =
        some (l, L1)) ∧
      (∀ fuel L L1 l, stateToType tb.trans tb.inEdges fuel s L = some (l, L1) →
        (0 < inDegree a s → L s = none →
          ∃ m, l = .Recur (stateName s) (mkNode b.dir b.role m) ∧
            L1 s = some (stateName s)) ∧
        (inDegree a s = 0 → ∃ m, l = mkNode b.dir b.role m) ∧
        (0 < inDegree a s → ∀ name, L s = some name → l = .TypeVar name ∧ L1 = L)) ∧
      (∀ fuel st L L1 l, stateToType tb.trans tb.inEdges fuel st L = some (l, L1) →
        ∀ n, L s = some n → L1 s = some n) ∧
      (∀ r m, mkNode .Recv r m = .Branch r m ∧ mkNode .Send r m = .Select r m) ∧
      (∀ render parse1, (FromLocal render chain).bind (ToLocal parse1) =
        some (.ok (.Branch ⟨"A"⟩ [(⟨"", payloadOf parse1 ""⟩,
          .Recur "L1" (.Branch ⟨"B"⟩ [(⟨"", payloadOf parse1 ""⟩, .End)]))]))) := by
  obtain ⟨tb, htb⟩ := scanTransitions_ok parse a.Transitions Tables.empty hdec
  have hne : tb.trans s ≠ none :=
    scanTransitions_has_bundle parse _ _ tb s htb (Or.inr (by simpa [sourceStates] using hs))
  obtain ⟨b, hb⟩ := Option.ne_none_iff_exists'.1 hne
  have hdeg : tb.inEdges s = inDegree a s := by
    rw [scanTransitions_inEdges parse _ _ tb htb s]
    simp [Tables.empty, inDegree]
  have hcons : tb.Consistent :=
    scanTransitions_consistent parse _ _ tb (by intro s tr h; simp [Tables.empty] at h) htb
  have hS : ∀ s, tb.trans s ≠ none → s ∈ (a.Transitions.map Transition.From).toFinset := by
    intro s hs
    rcases scanTransitions_sources parse _ _ tb htb s hs with h | h
    · simp [Tables.empty] at h
    · simpa using h
  refine ⟨tb, b, htb, hb, hdeg, ?_, ?_, ?_, fun _ _ => ⟨rfl, rfl⟩, fun _ _ => ?_⟩
  · intro L
    have hcard : (pending (a.Transitions.map Transition.From).toFinset tb.inEdges L).card ≤
        (sourceStates a).length := by
      calc (pending (a.Transitions.map Transition.From).toFinset tb.inEdges L).card
          ≤ (a.Transitions.map Transition.From).toFinset.card :=
            Finset.card_le_card (Finset.filter_subset _ _)
        _ = (sourceStates a).length := List.card_toFinset _
    exact stateToType_total_root tb.trans tb.inEdges _ hcons hS _ s L (by omega)
  · intro fuel L L1 l h
    cases fuel with
    | zero => simp [stateToType] at h
    | succ f =>
      rw [← hdeg]
      rcases stateToType_cases tb.trans tb.inEdges f s L L1 l h with
        ⟨htr, -, -⟩ | ⟨tr, name, htr, hin, hlab, rfl, rfl⟩ | ⟨tr, m, htr, hin, hlab, hre, rfl⟩ |
        ⟨tr, m, htr, hin, hre, rfl⟩
      · rw [hb] at htr
        cases htr
      · rw [hb, Option.some.injEq] at htr
        subst htr
        refine ⟨fun _ h0 => ?_, fun h0 => ?_, fun _ name1 h1 => ?_⟩
        · rw [hlab] at h0
          cases h0
        · omega
        · rw [hlab, Option.some.injEq] at h1
          exact ⟨by rw [h1], rfl⟩
      · rw [hb, Option.some.injEq] at htr
        subst htr
        have hkeep := (rebuildEdges_extends tb.trans tb.inEdges f _ _ _ _ _ hre).1 s
          (stateName s) (by simp [stateName])
        refine ⟨fun _ _ => ⟨m, by rw [hkeep]; rfl, hkeep⟩, fun h0 => ?_, fun _ name1 h1 => ?_⟩
        · omega
        · rw [hlab] at h1
          cases h1
      · rw [hb, Option.some.injEq] at htr
        subst htr
        refine ⟨fun h0 _ => ?_, fun _ => ⟨m, rfl⟩, fun h0 _ _ => ?_⟩ <;> omega
  · intro fuel st L L1 l h n hn
    exact (stateToType_extends tb.trans tb.inEdges fuel st L L1 l h).1 s n hn
  · with_unfolding_all rfl


/-- The theorem `stateToType_binder_rule` at state 1 of the automaton of the
chain `A?().B?().end`, a state with in-degree 1 outside every cycle. -/
theorem stateToType_binder_rule_witness :
    (1 : State) ∈ sourceStates chainAut ∧ inDegree chainAut 1 = 1 ∧
    ∃ tb b, scanTransitions (fun _ => none) chainAut.Transitions Tables.empty = .ok tb ∧
      tb.trans 1 = some b ∧ tb.inEdges 1 = inDegree chainAut 1 := by
  obtain ⟨tb, b, h1, h2, h3, -⟩ := stateToType_binder_rule (fun _ => none) chainAut (by
    intro t ht
    simp only [chainAut, List.mem_cons, List.mem_singleton, List.not_mem_nil, or_false] at ht
    rcases ht with rfl | rfl
    · exact ⟨_, rfl⟩
    · exact ⟨_, rfl⟩) 1 (by decide)
  exact ⟨by decide, by decide, tb, b, h1, h2, h3⟩

/-! ## One node per source state in the built automaton -/

mutual
/-- The transitions `toAut` adds start at the current state or at a state it
allocates; those that start at the current state carry the label format of
one node, and so do any two added transitions with the same source. -/
theorem toAut_bundle (render : Local → String) :
    ∀ (t : Local) (c : Conv) (frm : State) (c1 : Conv) (next : State),
      toAut render c frm t = some (c1, next) → frm < c.nextstate →
      ∃ added, c1.fsm = c.fsm ++ added ∧ c.nextstate ≤ c1.nextstate ∧
        (∀ tr ∈ added, tr.From = frm ∨ (c.nextstate ≤ tr.From ∧ tr.From < c1.nextstate)) ∧
        (∃ r d, ∀ tr ∈ added, tr.From = frm → emittedBy render r d tr.Label) ∧
        (∀ tr1 ∈ added, ∀ tr2 ∈ added, tr1.From = tr2.From →
          ∃ r d, emittedBy render r d tr1.Label ∧ emittedBy render r d tr2.Label)
  | .End, c, frm, c1, next, h, hfrm => by
    simp only [toAut, Option.some.injEq, Prod.mk.injEq] at h
    obtain ⟨rfl, rfl⟩ := h
    exact ⟨[], by simp, le_refl _, by simp, ⟨⟨""⟩, .Recv, by simp⟩, by simp⟩
  | .TypeVar x, c, frm, c1, next, h, hfrm => by
    simp only [toAut] at h
    cases hs : c.scope x with
    | none => simp [hs] at h
    | some st =>
      simp only [hs, Option.some.injEq, Prod.mk.injEq] at h
      obtain ⟨rfl, rfl⟩ := h
      exact ⟨[], by simp, le_refl _, by simp, ⟨⟨""⟩, .Recv, by simp⟩, by simp⟩
  | .Recur x body, c, frm, c1, next, h, hfrm => by
    simp only [toAut] at h
    simpa [Conv.bind] using toAut_bundle render body (c.bind x frm) frm c1 next h hfrm
  | .Branch r alts, c, frm, c1, next, h, hfrm => by
    simp only [toAut] at h
    cases hs : toAutAlts render (recvLabel render r) c frm alts with
    | none => simp [hs] at h
    | some c2 =>
      simp only [hs, Option.some.injEq, Prod.mk.injEq] at h
      obtain ⟨rfl, rfl⟩ := h
      obtain ⟨added, h1, h2, h3, h4, h5⟩ :=
        toAutAlts_bundle render alts r .Recv c frm c2 hs hfrm
      exact ⟨added, h1, h2, h3, ⟨r, .Recv, h4⟩, h5⟩
  | .Select r alts, c, frm, c1, next, h, hfrm => by
    simp only [toAut] at h
    cases hs : toAutAlts render (sendLabel render r) c frm alts with
    | none => simp [hs] at h
    | some c2 =>
      simp only [hs, Option.some.injEq, Prod.mk.injEq] at h
      obtain ⟨rfl, rfl⟩ := h
      obtain ⟨added, h1, h2, h3, h4, h5⟩ :=
        toAutAlts_bundle render alts r .Send c frm c2 hs hfrm
      exact ⟨added, h1, h2, h3, ⟨r, .Send, h4⟩, h5⟩
/-- The transitions the alternatives loop of a node adds at the current state
carry the label format of that node, and any two added transitions with the
same source carry the label format of one node. -/
theorem toAutAlts_bundle (render : Local → String) :
    ∀ (alts : List Alt) (r : Role) (d : Dir) (c : Conv) (frm : State) (c1 : Conv),
      toAutAlts render (nodeLabel render r d) c frm alts = some c1 → frm < c.nextstate →
      ∃ added, c1.fsm = c.fsm ++ added ∧ c.nextstate ≤ c1.nextstate ∧
        (∀ tr ∈ added, tr.From = frm ∨ (c.nextstate ≤ tr.From ∧ tr.From < c1.nextstate)) ∧
        (∀ tr ∈ added, tr.From = frm → emittedBy render r d tr.Label) ∧
        (∀ tr1 ∈ added, ∀ tr2 ∈ added, tr1.From = tr2.From →
          ∃ r d, emittedBy render r d tr1.Label ∧ emittedBy render r d tr2.Label)
  | [], r, d, c, frm, c1, h, hfrm => by
    simp only [toAutAlts, Option.some.injEq] at h
    subst h
    exact ⟨[], by simp, le_refl _, by simp, by simp, by simp⟩
  | (m, l) :: rest, r, d, c, frm, c1, h, hfrm => by
    simp only [toAutAlts] at h
    cases hs : toAut render c.newState.1 c.newState.2 l with
    | none => simp [hs] at h
    | some p =>
      obtain ⟨c2, next⟩ := p
      simp only [hs] at h
      have hnew : c.newState.1.nextstate = c.nextstate + 1 := rfl
      have hst : c.newState.2 = c.nextstate := rfl
      obtain ⟨addL, hL, hmonoL, hsrcL, -, hsameL⟩ :=
        toAut_bundle render l c.newState.1 c.newState.2 c2 next hs (by simp [Conv.newState])
      obtain ⟨addR, hR, hmonoR, hsrcR, hfrmR, hsameR⟩ :=
        toAutAlts_bundle render rest r d (c2.AddTransition frm (nodeLabel render r d m) next)
          frm c1 h (Nat.lt_of_lt_of_le hfrm (by
            show c.nextstate ≤ c2.nextstate
            omega))
      have hmonoR1 : c2.nextstate ≤ c1.nextstate := hmonoR
      rw [hnew] at hmonoL hsrcL
      rw [hst] at hsrcL
      have hsrcL1 : ∀ tr ∈ addL, c.nextstate ≤ tr.From ∧ tr.From < c2.nextstate := by
        intro tr htr
        rcases hsrcL tr htr with h1 | ⟨h1, h2⟩
        · exact ⟨Nat.le_of_eq h1.symm, Nat.lt_of_lt_of_le (Nat.lt_of_le_of_lt
            (Nat.le_of_eq h1) (Nat.lt_succ_self _)) hmonoL⟩
        · exact ⟨Nat.le_of_lt (Nat.lt_of_lt_of_le (Nat.lt_succ_self _) h1), h2⟩
      have hsrcR1 : ∀ tr ∈ addR, tr.From = frm ∨
          (c2.nextstate ≤ tr.From ∧ tr.From < c1.nextstate) := hsrcR
      have hedge : emittedBy render r d (nodeLabel render r d m) := ⟨m, rfl⟩
      have hsep : ∀ tr1 ∈ addL, ∀ tr2 : Transition, (tr2.From = frm ∨
          (c2.nextstate ≤ tr2.From ∧ tr2.From < c1.nextstate)) → tr1.From ≠ tr2.From := by
        intro tr1 h1 tr2 h2 heq
        obtain ⟨ha, hb⟩ := hsrcL1 tr1 h1
        rcases h2 with h2 | ⟨h2, -⟩
        · rw [heq, h2] at ha
          exact absurd (Nat.lt_of_lt_of_le hfrm ha) (Nat.lt_irrefl _)
        · rw [heq] at hb
          exact absurd (Nat.lt_of_lt_of_le hb h2) (Nat.lt_irrefl _)
      have hright : ∀ tr : Transition, tr = (⟨frm, nodeLabel render r d m, next⟩ : Transition) ∨ tr ∈ addR →
          (tr.From = frm ∨ (c2.nextstate ≤ tr.From ∧ tr.From < c1.nextstate)) ∧
          (tr.From = frm → emittedBy render r d tr.Label) := by
        intro tr htr
        rcases htr with rfl | htr
        · exact ⟨Or.inl rfl, fun _ => hedge⟩
        · exact ⟨hsrcR1 tr htr, hfrmR tr htr⟩
      have hsameRight : ∀ tr1 : Transition, (tr1 = (⟨frm, nodeLabel render r d m, next⟩ : Transition) ∨
          tr1 ∈ addR) → ∀ tr2 : Transition, (tr2 = (⟨frm, nodeLabel render r d m, next⟩ : Transition) ∨
          tr2 ∈ addR) → tr1.From = tr2.From →
          ∃ r d, emittedBy render r d tr1.Label ∧ emittedBy render r d tr2.Label := by
        intro tr1 h1 tr2 h2 heq
        by_cases hf : tr1.From = frm
        · exact ⟨r, d, (hright tr1 h1).2 hf, (hright tr2 h2).2 (heq ▸ hf)⟩
        · have h1R : tr1 ∈ addR := by
            rcases h1 with rfl | h1
            · exact absurd rfl hf
            · exact h1
          have h2R : tr2 ∈ addR := by
            rcases h2 with rfl | h2
            · exact absurd heq hf
            · exact h2
          exact hsameR tr1 h1R tr2 h2R heq
      refine ⟨addL ++ [⟨frm, nodeLabel render r d m, next⟩] ++ addR, ?_, ?_, ?_, ?_, ?_⟩
      · rw [hR]
        simp only [Conv.AddTransition, hL, Conv.newState, List.append_assoc]
      · show c.nextstate ≤ c1.nextstate
        omega
      · intro tr htr
        simp only [List.append_assoc, List.mem_append, List.mem_singleton] at htr
        rcases htr with htr | htr
        · obtain ⟨ha, hb⟩ := hsrcL1 tr htr
          exact Or.inr ⟨ha, Nat.lt_of_lt_of_le hb hmonoR1⟩
        · rcases (hright tr (by simpa using htr)).1 with h1 | ⟨h1, h2⟩
          · exact Or.inl h1
          · exact Or.inr ⟨Nat.le_trans (by omega) h1, h2⟩
      · intro tr htr hf
        simp only [List.append_assoc, List.mem_append, List.mem_singleton] at htr
        rcases htr with htr | htr
        · exact absurd hf (hsep tr htr ⟨frm, "", 0⟩ (Or.inl rfl))
        · exact (hright tr (by simpa using htr)).2 hf
      · intro tr1 h1 tr2 h2 heq
        simp only [List.append_assoc, List.mem_append, List.mem_singleton] at h1 h2
        rcases h1 with h1 | h1
        · rcases h2 with h2 | h2
          · exact hsameL tr1 h1 tr2 h2 heq
          · exact absurd heq (hsep tr1 h1 tr2 (hright tr2 (by simpa using h2)).1)
        · rcases h2 with h2 | h2
          · exact absurd heq.symm (hsep tr2 h2 tr1 (hright tr1 (by simpa using h1)).1)
          · exact hsameRight tr1 (by simpa using h1) tr2 (by simpa using h2) heq
end


/-- When the builder succeeds, any two transitions of the automaton with the
same source state were emitted by one node: their labels are in the label
format of the same role and the same direction. -/
theorem FromLocal_one_node_per_source (render : Local → String) (t : Local) (a : Aut)
    (h : FromLocal render t = some a) :
    ∀ tr1 ∈ a.Transitions, ∀ tr2 ∈ a.Transitions, tr1.From = tr2.From →
      ∃ r d, emittedBy render r d tr1.Label ∧ emittedBy render r d tr2.Label := by
  unfold FromLocal at h
  cases hs : toAut render newConv.newState.1 newConv.newState.2 t with
  | none => simp [hs] at h
  | some p =>
    obtain ⟨c, next⟩ := p
    simp only [hs, Option.some.injEq] at h
    subst h
    obtain ⟨added, hfsm, -, -, -, hsame⟩ := toAut_bundle render t _ _ c next hs
      (by simp [newConv, Conv.newState])
    have hfsm1 : c.fsm = added := by simpa [newConv, Conv.newState] using hfsm
    intro tr1 h1 tr2 h2 heq
    exact hsame tr1 (hfsm1 ▸ h1) tr2 (hfsm1 ▸ h2) heq

/-- The theorem `FromLocal_one_node_per_source` at the type of `TestRecur`. -/
theorem FromLocal_one_node_per_source_witness :
    ∃ a, FromLocal (fun _ => "B&{?L(T).end}") testRecur = some a ∧
      ∀ tr1 ∈ a.Transitions, ∀ tr2 ∈ a.Transitions, tr1.From = tr2.From →
        ∃ r d, emittedBy (fun _ => "B&{?L(T).end}") r d tr1.Label ∧
          emittedBy (fun _ => "B&{?L(T).end}") r d tr2.Label :=
  ⟨_, rfl, FromLocal_one_node_per_source (fun _ => "B&{?L(T).end}") testRecur _ rfl⟩


/-! ## Names of the states -/

theorem digitVal_digitChar (d : Nat) (h : d < 10) : digitVal (Nat.digitChar d) = d := by
  interval_cases d <;> rfl

theorem foldl_toDigitsCore : ∀ (fuel n : Nat) (ds : List Char), n < fuel →
    (Nat.toDigitsCore 10 fuel n ds).foldl (fun acc c => acc * 10 + digitVal c) 0 =
      ds.foldl (fun acc c => acc * 10 + digitVal c) n
  | 0, n, ds, h => absurd h (Nat.not_lt_zero _)
  | fuel + 1, n, ds, h => by
    unfold Nat.toDigitsCore
    by_cases h0 : n / 10 = 0
    · simp only [h0, if_true, List.foldl_cons]
      have hn : n < 10 := by omega
      rw [Nat.mod_eq_of_lt hn, digitVal_digitChar n hn]
      simp
    · simp only [h0, if_false]
      rw [foldl_toDigitsCore fuel (n / 10) _ (by omega)]
      simp only [List.foldl_cons]
      rw [digitVal_digitChar _ (Nat.mod_lt _ (by decide))]
      congr 1
      omega

theorem numVal_toDigits (n : Nat) : numVal (Nat.toDigits 10 n) = n := by
  unfold numVal Nat.toDigits
  rw [foldl_toDigitsCore (n + 1) n [] (by omega)]
  rfl

/-- Two states with the same name are the same state. -/
theorem stateName_injective (s t : State) (h : stateName s = stateName t) : s = t := by
  have h1 : (stateName s).data = (stateName t).data := by rw [h]
  have e : ∀ k : Nat, (stateName k).data = 'L' :: Nat.toDigits 10 k := by
    intro k
    simp [stateName, toString, Nat.repr, List.asString]
  rw [e, e] at h1
  have h2 : Nat.toDigits 10 s = Nat.toDigits 10 t := by simpa using h1
  have := congrArg numVal h2
  simpa [numVal_toDigits] using this

/-! ## The assignment on the map of alternatives -/

theorem binderNamesList_setAlt (k : Message Local) (v : Local) :
    ∀ (m : List Alt) (n : String), n ∈ binderNamesList (setAlt m k v) →
      n ∈ binderNamesList m ∨ n ∈ binderNames v
  | [], n, h => by
    simp only [setAlt, binderNamesList, List.append_nil] at h
    exact Or.inr h
  | (k1, v1) :: rest, n, h => by
    unfold setAlt at h
    by_cases hk : k1.keyEq k = true
    · simp only [hk, if_true, binderNamesList, List.mem_append] at h ⊢
      rcases h with h | h
      · exact Or.inr h
      · exact Or.inl (Or.inr h)
    · simp only [hk, binderNamesList, List.mem_append] at h ⊢
      rcases h with h | h
      · exact Or.inl (Or.inl h)
      · rcases binderNamesList_setAlt k v rest n h with h1 | h1
        · exact Or.inl (Or.inr h1)
        · exact Or.inr h1

theorem varNamesList_setAlt (k : Message Local) (v : Local) :
    ∀ (m : List Alt) (n : String), n ∈ varNamesList (setAlt m k v) →
      n ∈ varNamesList m ∨ n ∈ varNames v
  | [], n, h => by
    simp only [setAlt, varNamesList, List.append_nil] at h
    exact Or.inr h
  | (k1, v1) :: rest, n, h => by
    unfold setAlt at h
    by_cases hk : k1.keyEq k = true
    · simp only [hk, if_true, varNamesList, List.mem_append] at h ⊢
      rcases h with h | h
      · exact Or.inr h
      · exact Or.inl (Or.inr h)
    · simp only [hk, varNamesList, List.mem_append] at h ⊢
      rcases h with h | h
      · exact Or.inl (Or.inl h)
      · rcases varNamesList_setAlt k v rest n h with h1 | h1
        · exact Or.inl (Or.inr h1)
        · exact Or.inr h1

theorem recurWrapsNodeList_setAlt (k : Message Local) (v : Local)
    (hv : recurWrapsNode v = true) :
    ∀ (m : List Alt), recurWrapsNodeList m = true → recurWrapsNodeList (setAlt m k v) = true
  | [], _ => by simp [setAlt, recurWrapsNodeList, hv]
  | (k1, v1) :: rest, h => by
    simp only [recurWrapsNodeList, Bool.and_eq_true] at h
    unfold setAlt
    by_cases hk : k1.keyEq k = true
    · simp [hk, recurWrapsNodeList, hv, h.2]
    · simp [hk, recurWrapsNodeList, h.1, recurWrapsNodeList_setAlt k v hv rest h.2]

theorem binderNamesList_setAlt_nodup (k : Message Local) (v : Local)
    (hv : (binderNames v).Nodup) :
    ∀ (m : List Alt), (binderNamesList m).Nodup →
      (∀ n ∈ binderNamesList m, n ∉ binderNames v) →
      (binderNamesList (setAlt m k v)).Nodup
  | [], _, _ => by simpa [setAlt, binderNamesList] using hv
  | (k1, v1) :: rest, hm, hdisj => by
    simp only [binderNamesList, List.nodup_append] at hm
    obtain ⟨h1, h2, h3⟩ := hm
    have hdr : ∀ n ∈ binderNamesList rest, n ∉ binderNames v := fun n hn =>
      hdisj n (by simp [binderNamesList, hn])
    unfold setAlt
    by_cases hk : k1.keyEq k = true
    · simp only [hk, if_true, binderNamesList, List.nodup_append]
      refine ⟨hv, h2, ?_⟩
      intro n hn1 hn2
      exact hdr n hn2 hn1
    · simp only [hk, binderNamesList, List.nodup_append]
      refine ⟨h1, binderNamesList_setAlt_nodup k v hv rest h2 hdr, ?_⟩
      intro n hn1 hn2
      rcases binderNamesList_setAlt k v rest n hn2 with h4 | h4
      · exact h3 hn1 h4
      · exact hdisj n (by simp [binderNamesList, hn1]) h4


/-! ## Shape of the rebuilt type -/

theorem mkNode_shape (d : Dir) (r : Role) (m : List Alt) :
    (mkNode d r m).isNode = true ∧ binderNames (mkNode d r m) = binderNamesList m ∧
    varNames (mkNode d r m) = varNamesList m ∧
    recurWrapsNode (mkNode d r m) = recurWrapsNodeList m := by
  cases d <;> simp [mkNode, Local.isNode, binderNames, varNames, recurWrapsNode]

/-- The map after a call of `stateToType` is well named when the map before
it is. -/
theorem stateToType_wellNamed (trans : State → Option transition) (inEdges : State → Nat)
    (fuel : Nat) (st : State) (L L1 : State → Option String) (l : Local)
    (hL : WellNamed inEdges L) (h : stateToType trans inEdges fuel st L = some (l, L1)) :
    WellNamed inEdges L1 := by
  obtain ⟨hk, hn⟩ := stateToType_extends trans inEdges fuel st L L1 l h
  intro s n hs
  cases hLs : L s with
  | some n0 =>
    have := hk s n0 hLs
    rw [this, Option.some.injEq] at hs
    exact hs ▸ hL s n0 hLs
  | none =>
    obtain ⟨-, h2, h3⟩ := hn s hLs (by simp [hs])
    rw [h3, Option.some.injEq] at hs
    exact ⟨hs.symm, h2⟩

/-- The edge loop keeps the shape of the collected alternatives. -/
theorem rebuildEdges_shape (trans : State → Option transition) (inEdges : State → Nat)
    (fuel : Nat)
    (ih : ∀ st L L1 l, WellNamed inEdges L →
      stateToType trans inEdges fuel st L = some (l, L1) → GoodType inEdges L L1 l)
    (L0 : State → Option String) :
    ∀ (edges : List Edge) (La Lb : State → Option String) (m m1 : List Alt),
      WellNamed inEdges La → (∀ s n, L0 s = some n → La s = some n) →
      GoodAlts inEdges L0 La m →
      rebuildEdges (stateToType trans inEdges fuel) edges La m = some (m1, Lb) →
      GoodAlts inEdges L0 Lb m1
  | [], La, Lb, m, m1, _, _, hm, h => by
    simp only [rebuildEdges, Option.some.injEq, Prod.mk.injEq] at h
    obtain ⟨rfl, rfl⟩ := h
    exact hm
  | e :: rest, La, Lb, m, m1, hLa, hbase, hm, h => by
    obtain ⟨l, Lc, h1, h2⟩ := rebuildEdges_cons _ e rest La m _ h
    obtain ⟨g1, g2, g3, g4⟩ := ih e.next La Lc l hLa h1
    obtain ⟨hk, -⟩ := stateToType_extends trans inEdges fuel e.next La Lc l h1
    obtain ⟨m1a, m2a, m3a, m4a⟩ := hm
    have hdisj : ∀ n ∈ binderNamesList m, n ∉ binderNames l := by
      intro n hn hn1
      obtain ⟨s, rfl, -, hs2⟩ := m3a n hn
      obtain ⟨s1, he, hs3, -⟩ := g3 _ hn1
      have := stateName_injective s s1 he
      subst this
      exact hs2 hs3
    have hnew : GoodAlts inEdges L0 Lc (setAlt m e.mesg l) := by
      refine ⟨recurWrapsNodeList_setAlt _ _ g1 m m1a,
        binderNamesList_setAlt_nodup _ _ g2 m m2a hdisj, ?_, ?_⟩
      · intro n hn
        rcases binderNamesList_setAlt _ _ m n hn with hn1 | hn1
        · obtain ⟨s, rfl, hs1, hs2⟩ := m3a n hn1
          refine ⟨s, rfl, hs1, ?_⟩
          obtain ⟨n0, hn0⟩ := Option.ne_none_iff_exists'.1 hs2
          simp [hk s n0 hn0]
        · obtain ⟨s, rfl, hs1, hs2⟩ := g3 n hn1
          refine ⟨s, rfl, ?_, hs2⟩
          cases h0 : L0 s with
          | none => rfl
          | some n0 =>
            rw [hbase s n0 h0] at hs1
            cases hs1
      · intro n hn
        rcases varNamesList_setAlt _ _ m n hn with hn1 | hn1
        · exact m4a n hn1
        · exact g4 n hn1
    exact rebuildEdges_shape trans inEdges fuel ih L0 rest Lc Lb _ m1
      (stateToType_wellNamed trans inEdges fuel e.next La Lc l hLa h1)
      (fun s n hs => hk s n (hbase s n hs)) hnew h2

/-- The type `stateToType` returns has the shape `GoodType`. -/
theorem stateToType_shape (trans : State → Option transition) (inEdges : State → Nat) :
    ∀ (fuel : Nat) (st : State) (L L1 : State → Option String) (l : Local),
      WellNamed inEdges L → stateToType trans inEdges fuel st L = some (l, L1) →
      GoodType inEdges L L1 l
  | 0, _, _, _, _, _, h => by simp [stateToType] at h
  | fuel + 1, st, L, L1, l, hL, h => by
    have ih := stateToType_shape trans inEdges fuel
    rcases stateToType_cases trans inEdges fuel st L L1 l h with
      ⟨-, rfl, rfl⟩ | ⟨tr, name, -, hin, hlab, rfl, rfl⟩ | ⟨tr, m, htr, hin, hlab, hre, rfl⟩ |
      ⟨tr, m, -, -, hre, rfl⟩
    · exact ⟨rfl, by simp [binderNames], by simp [binderNames], by simp [varNames]⟩
    · refine ⟨rfl, by simp [binderNames], by simp [binderNames], ?_⟩
      intro n hn
      simp only [varNames, List.mem_singleton] at hn
      subst hn
      exact ⟨st, (hL st _ hlab).1, hin⟩
    · have hL1 : WellNamed inEdges (fun s => if s = st then some ("L" ++ toString st) else L s) := by
        intro s n hs
        by_cases hst : s = st
        · subst hst
          simp only [if_true, Option.some.injEq] at hs
          exact ⟨hs.symm, hin⟩
        · simp only [hst, if_false] at hs
          exact hL s n hs
      obtain ⟨a1, a2, a3, a4⟩ := rebuildEdges_shape trans inEdges fuel ih _ tr.edges _ L1 [] m hL1
        (fun _ _ hs => hs)
        ⟨rfl, by simp [binderNamesList], by simp [binderNamesList], by simp [varNamesList]⟩ hre
      have hkeep : L1 st = some (stateName st) :=
        (rebuildEdges_extends trans inEdges fuel _ _ _ _ _ hre).1 st (stateName st)
          (by simp [stateName])
      obtain ⟨n1, n2, n3, n4⟩ := mkNode_shape tr.dir tr.role m
      rw [hkeep]
      refine ⟨?_, ?_, ?_, ?_⟩
      · simp [recurWrapsNode, n1, n4, a1]
      · simp only [binderNames, Option.getD_some, n2, List.nodup_cons]
        refine ⟨?_, a2⟩
        intro hmem
        obtain ⟨s, he, hs1, -⟩ := a3 _ hmem
        have := stateName_injective st s he
        subst this
        simp at hs1
      · intro n hn
        simp only [binderNames, Option.getD_some, n2, List.mem_cons] at hn
        rcases hn with rfl | hn
        · exact ⟨st, rfl, hlab, by simp [hkeep]⟩
        · obtain ⟨s, rfl, hs1, hs2⟩ := a3 n hn
          refine ⟨s, rfl, ?_, hs2⟩
          by_cases hst : s = st
          · simp [hst] at hs1
          · simpa [hst] using hs1
      · intro n hn
        simp only [varNames, n3] at hn
        exact a4 n hn
    · obtain ⟨a1, a2, a3, a4⟩ := rebuildEdges_shape trans inEdges fuel ih L tr.edges L L1 [] m hL
        (fun _ _ hs => hs)
        ⟨rfl, by simp [binderNamesList], by simp [binderNamesList], by simp [varNamesList]⟩ hre
      obtain ⟨n1, n2, n3, n4⟩ := mkNode_shape tr.dir tr.role m
      exact ⟨by rw [n4]; exact a1, by rw [n2]; exact a2, by rw [n2]; exact a3,
        by rw [n3]; exact a4⟩


/-- C20: for every automaton whose labels decode, `ToLocal` returns a type in
which, in continuation position, every `Recur` directly wraps a `Branch` or
a `Select`, every `Recur` and `TypeVar` name is `L<id>` for a state id with
in-degree > 0, and no two `Recur` binders carry the same name. -/
theorem ToLocal_binder_shape (parse : String → Option Local) (a : Aut)
    (hdec : ∀ tr ∈ a.Transitions, ∃ x, parseLabel parse tr.Label = .ok x) :
    ∃ l, ToLocal parse a = some (.ok l) ∧ recurWrapsNode l = true ∧
      (∀ n ∈ binderNames l ++ varNames l, ∃ s, n = stateName s ∧ 0 < inDegree a s) ∧
      (binderNames l).Nodup := by
  obtain ⟨l, hl⟩ := ToLocal_total parse a hdec
  refine ⟨l, hl, ?_⟩
  unfold ToLocal at hl
  cases htb : scanTransitions parse a.Transitions Tables.empty with
  | error e => simp [htb] at hl
  | ok tb =>
    simp only [htb] at hl
    cases hst : stateToType tb.trans tb.inEdges (a.Transitions.length + 2) a.Init
        (fun _ => none) with
    | none => simp [hst] at hl
    | some p =>
      obtain ⟨l1, L1⟩ := p
      simp only [hst, Option.some.injEq, Except.ok.injEq] at hl
      subst hl
      have hdeg : ∀ s, tb.inEdges s = inDegree a s := by
        intro s
        rw [scanTransitions_inEdges parse _ _ tb htb s]
        simp [Tables.empty, inDegree]
      obtain ⟨g1, g2, g3, g4⟩ := stateToType_shape tb.trans tb.inEdges _ _ _ _ _
        (by intro s n hs; cases hs) hst
      obtain ⟨-, hn⟩ := stateToType_extends tb.trans tb.inEdges _ _ _ _ _ hst
      refine ⟨g1, ?_, g2⟩
      intro n hmem
      rcases List.mem_append.1 hmem with hmem | hmem
      · obtain ⟨s, rfl, hs1, hs2⟩ := g3 n hmem
        exact ⟨s, rfl, hdeg s ▸ (hn s hs1 hs2).2.1⟩
      · obtain ⟨s, rfl, hs⟩ := g4 n hmem
        exact ⟨s, rfl, hdeg s ▸ hs⟩

/-- The theorem `ToLocal_binder_shape` at the automaton
`0 -a-> 1, 0 -b-> 1, 1 -c-> 2`. -/
theorem ToLocal_binder_shape_witness :
    ∃ l, ToLocal (fun _ => none) sharedTarget = some (.ok l) ∧ recurWrapsNode l = true ∧
      (binderNames l).Nodup := by
  obtain ⟨l, h1, h2, -, h3⟩ := ToLocal_binder_shape (fun _ => none) sharedTarget (by
    intro t ht
    simp only [sharedTarget, List.mem_cons, List.mem_singleton, List.not_mem_nil,
      or_false] at ht
    rcases ht with rfl | rfl | rfl
    · exact ⟨_, rfl⟩
    · exact ⟨_, rfl⟩
    · exact ⟨_, rfl⟩)
  exact ⟨l, h1, h2, h3⟩

/-! ## The bundle of a builder state under the label decoder -/

/-- C19: for the `Select` to `R` with the alternatives `m(A?l(T).end)` and
`n(int)` the builder returns two transitions that leave state 0, both emitted
by that one `Select` node; `parseLabel` decodes the first as a receive from
`A` and the second as a send to `R`, so the two transitions of one source
state do not decode to the same role and direction, and `ToLocal` rebuilds
state 0 as a `Branch` from `A` that holds both alternatives. -/
theorem FromLocal_bundle_decodes_apart :
    (∀ render : Local → String, render nestedRecv = "A?l(T).end" →
      FromLocal render selectMixed = some selectMixedAut) ∧
    (∀ tr ∈ selectMixedAut.Transitions, tr.From = 0) ∧
    (∀ render : Local → String, render nestedRecv = "A?l(T).end" →
      ∀ tr ∈ selectMixedAut.Transitions, emittedBy render ⟨"R"⟩ .Send tr.Label) ∧
    (∀ parse, parseLabel parse "R ! m(A?l(T).end)" =
      .ok (⟨"A"⟩, .Recv, ⟨"l", payloadOf parse "T).end"⟩)) ∧
    (∀ parse, parseLabel parse "R ! n(int)" =
      .ok (⟨"R"⟩, .Send, ⟨"n", payloadOf parse "int"⟩)) ∧
    (∀ parse, ToLocal parse selectMixedAut =
      some (.ok (.Branch ⟨"A"⟩
        [(⟨"l", payloadOf parse "T).end"⟩, .End), (⟨"n", payloadOf parse "int"⟩, .End)]))) := by
  have lbl : ∀ render : Local → String, render nestedRecv = "A?l(T).end" →
      sendLabel render ⟨"R"⟩ ⟨"m", .loc nestedRecv⟩ = "R ! m(A?l(T).end)" := by
    intro render h
    simp only [sendLabel, Message.String, Payload.String, h, Role.Name]
    decide
  refine ⟨?_, by decide, ?_, fun _ => rfl, fun _ => rfl, fun _ => by with_unfolding_all rfl⟩
  · intro render h
    have e : FromLocal render selectMixed =
        some ⟨0, 2, 3, [⟨0, sendLabel render ⟨"R"⟩ ⟨"m", .loc nestedRecv⟩, 1⟩,
          ⟨0, sendLabel render ⟨"R"⟩ (msg "n" "int"), 2⟩]⟩ := rfl
    rw [e, lbl render h]
    rfl
  · intro render h tr htr
    simp only [selectMixedAut, List.mem_cons, List.mem_singleton, List.not_mem_nil,
      or_false] at htr
    rcases htr with rfl | rfl
    · exact ⟨⟨"m", .loc nestedRecv⟩, (lbl render h).symm⟩
    · exact ⟨msg "n" "int", rfl⟩

end Sesstypeconv
